import Mathlib

/-!
Verification development for the `to` conversion planner
(repository internetimagery/to, files src/search.rs and src/lib.rs).

The planner instantiates the generic graph `Graph<K, V, D>` at
`K = V = D = Int` where `Int` is the host's `isize` (lib.rs line 15):
keys, variations and payloads reaching the search engine are Python hash
values.  We therefore model all three as `ℤ`.

Modelling choices (each is noted again at its definition):
* `BTreeSet<V>` becomes `Finset ℤ`; its derived `Ord` (lexicographic over
  the ascending element sequence) is reproduced by comparing sorted lists.
* `Cost = i32` arithmetic is modelled on `ℤ`; no claim below exercises
  i32 overflow of accumulated path costs, while the single
  `isize -> i32` conversion the claims do exercise (lib.rs line 120) is
  modelled with its explicit range check in `addConversion`.
* `BinaryHeap<Reverse<RState>>` pops a minimal state under the derived
  total order on `State`; we model the queue as a list from which a
  minimal element (under the same lexicographic field order as the Rust
  `derive(Ord)`) is removed.
* the `u64` fingerprint `hash(&variations)` used to key the visited maps
  is modelled by the variation set itself (an injective fingerprint);
  SipHash collisions are not modelled.
* `HashMap` / `HashSet` iteration order: the order in which an edge set
  is iterated only changes the order of pushes into the priority queues,
  which the total order on states makes irrelevant; the model fixes an
  insertion order.  The iteration order of `values()` over the inner
  visited maps (search.rs lines 220 and 272) is observable — Rust seeds
  it randomly per process — so the model exposes it as the `rev` flag of
  the `Searcher`: `false` scans entries in insertion order, `true` in
  reverse.
-/

set_option maxHeartbeats 4000000

/-- An edge of the conversion graph (search.rs `Edge<K, V, D>`), fields in
the Rust declaration order, which the derived `Ord` uses. -/
structure Edge where
  cost : ℤ
  key_in : ℤ
  key_out : ℤ
  data : ℤ
  variations_in : Finset ℤ
  variations_out : Finset ℤ
deriving DecidableEq

/-- Lexicographic comparison of integer lists: the order `derive(Ord)`
gives Rust's `BTreeSet<i64>` once the sets are viewed as ascending
sequences (shorter prefixes sort first). -/
def listCmp : List ℤ → List ℤ → Ordering
  | [], [] => .eq
  | [], _ :: _ => .lt
  | _ :: _, [] => .gt
  | a :: as, b :: bs => (compare a b).then (listCmp as bs)

/-- Comparison of variation sets, mirroring `Ord` on `BTreeSet`. -/
def varsCmp (s t : Finset ℤ) : Ordering :=
  listCmp (s.sort (· ≤ ·)) (t.sort (· ≤ ·))

/-- Derived `Ord` on `Edge`: lexicographic over the fields in
declaration order. -/
def Edge.cmp (a b : Edge) : Ordering :=
  (compare a.cost b.cost).then
    ((compare a.key_in b.key_in).then
      ((compare a.key_out b.key_out).then
        ((compare a.data b.data).then
          ((varsCmp a.variations_in b.variations_in).then
            (varsCmp a.variations_out b.variations_out)))))

/-- A node of the search frontier (search.rs `State<'a, K, V, D>`):
accumulated cost, the two tie-break counters (stored under `Reverse` in
Rust), the variation set active after traversing `edge`, the edge, and
the parent back-link. -/
inductive SState where
  | mk : ℤ → ℕ → ℕ → Finset ℤ → Edge → Option SState → SState

def SState.cost : SState → ℤ
  | .mk c _ _ _ _ _ => c

def SState.var_consumed : SState → ℕ
  | .mk _ vc _ _ _ _ => vc

def SState.var_added : SState → ℕ
  | .mk _ _ va _ _ _ => va

def SState.variations : SState → Finset ℤ
  | .mk _ _ _ vs _ _ => vs

def SState.edge : SState → Edge
  | .mk _ _ _ _ e _ => e

def SState.parent : SState → Option SState
  | .mk _ _ _ _ _ p => p

/-- `State::new` (search.rs lines 88-117): a root state costs its edge's
cost; a child adds the parent's cost and accumulates both tie-break
counters. -/
def SState.new (var_consumed var_added : ℕ) (edge : Edge)
    (parent : Option SState) (variations : Finset ℤ) : SState :=
  match parent with
  | some p =>
      .mk (p.cost + edge.cost) (var_consumed + p.var_consumed)
        (var_added + p.var_added) variations edge (some p)
  | none => .mk edge.cost var_consumed var_added variations edge none

/-- Derived `Ord` on `State`: cost ascending, then `Reverse(var_consumed)`
and `Reverse(var_added)` (so larger counters sort first), then the
variation set, the edge, and finally the parent chain
(`None < Some`, recursively). -/
def SState.cmp : SState → SState → Ordering
  | .mk c1 vc1 va1 vs1 e1 p1, .mk c2 vc2 va2 vs2 e2 p2 =>
    (compare c1 c2).then
      ((compare vc2 vc1).then
        ((compare va2 va1).then
          ((varsCmp vs1 vs2).then
            ((Edge.cmp e1 e2).then
              (match p1, p2 with
               | none, none => .eq
               | none, some _ => .lt
               | some _, none => .gt
               | some a, some b => SState.cmp a b)))))

/-- The edges of the partial path recorded by a state, from the state's
own edge back to the root (`State::iter`, search.rs lines 118-136). -/
def SState.chainEdges : SState → List Edge
  | .mk _ _ _ _ e p => e :: (match p with | none => [] | some q => q.chainEdges)

/-- Pop of `BinaryHeap<Reverse<RState>>`: remove a minimal state under
the derived total order (ties can only be bit-identical states, so which
one the real heap yields is unobservable). -/
def popMin : List SState → Option (SState × List SState)
  | [] => none
  | s :: rest =>
    match popMin rest with
    | none => some (s, [])
    | some (m, r) => if SState.cmp s m = .gt then some (m, s :: r) else some (s, rest)

/-- A visited map `HashMap<&AEdge, HashMap<u64, RState>>`, with the inner
`u64` fingerprint replaced by the fingerprinted variation set itself. -/
def VisitMap : Type := List (Edge × List (Finset ℤ × SState))

def vmFind (vm : VisitMap) (e : Edge) : Option (List (Finset ℤ × SState)) :=
  (List.find? (fun p => decide (p.1 = e)) vm).map Prod.snd

def vmContains (vm : VisitMap) (e : Edge) (fp : Finset ℤ) : Bool :=
  match vmFind vm e with
  | none => false
  | some l => l.any (fun q => decide (q.1 = fp))

def innerInsert (fp : Finset ℤ) (s : SState) :
    List (Finset ℤ × SState) → List (Finset ℤ × SState)
  | [] => [(fp, s)]
  | (fp', s') :: r => if fp' = fp then (fp, s) :: r else (fp', s') :: innerInsert fp s r

def vmInsert (vm : VisitMap) (e : Edge) (fp : Finset ℤ) (s : SState) : VisitMap :=
  match vm with
  | [] => [(e, [(fp, s)])]
  | (e', l) :: rest =>
    if e' = e then (e', innerInsert fp s l) :: rest else (e', l) :: vmInsert rest e fp s

/-- All states stored in a visited map. -/
def vmStates (vm : VisitMap) : List SState :=
  (vm.map (fun p => p.2.map Prod.snd)).flatten

/-- Iteration over `values()` of an inner visited map.  The flag models
the process-random `HashMap` iteration order: `false` scans in insertion
order, `true` in reverse. -/
def vmValues (rev : Bool) (l : List (Finset ℤ × SState)) : List SState :=
  (if rev then l.reverse else l).map Prod.snd

/-- The graph (search.rs `Graph<K, V, D>`): the contents of the two edge
indices `edges_in` / `edges_out`.  `add_edge` inserts every edge into
both maps, so each index holds the same set of edges grouped by
`key_in` (resp. `key_out`); the model keeps each index as a flat
deduplicated list and performs the key lookup by filtering. -/
structure Graph where
  edges_in : List Edge
  edges_out : List Edge

def Graph.empty : Graph := ⟨[], []⟩

/-- `HashSet::insert`: a duplicate edge (all six fields equal) collapses. -/
def insertEdge (l : List Edge) (e : Edge) : List Edge :=
  if e ∈ l then l else e :: l

/-- `Graph::add_edge` (search.rs lines 419-440). -/
def Graph.add_edge (g : Graph) (cost : ℤ) (key_in : ℤ) (variations_in : Finset ℤ)
    (key_out : ℤ) (variations_out : Finset ℤ) (data : ℤ) : Graph :=
  let e : Edge := ⟨cost, key_in, key_out, data, variations_in, variations_out⟩
  ⟨insertEdge g.edges_in e, insertEdge g.edges_out e⟩

/-- Lookup `edges_in.get(&k)` : the edges registered under source key `k`. -/
def lookIn (edges : List Edge) (k : ℤ) : List Edge :=
  edges.filter (fun e => decide (e.key_in = k))

/-- Lookup `edges_out.get(&k)` : the edges registered under target key `k`. -/
def lookOut (edges : List Edge) (k : ℤ) : List Edge :=
  edges.filter (fun e => decide (e.key_out = k))

/-- The search state (search.rs `Searcher<'a, K, V, D>`).  `rev` is the
model's handle on the `values()` iteration order of the visited maps
(see the header comment); everything else mirrors the Rust fields. -/
structure Searcher where
  rev : Bool
  edges_in : List Edge
  edges_out : List Edge
  key_in : ℤ
  key_out : ℤ
  variations_in : Finset ℤ
  variations_out : Finset ℤ
  queue_in : List SState
  queue_out : List SState
  visited_in : VisitMap
  visited_out : VisitMap
  skip_edges : Finset Edge

def Searcher.init (rev : Bool) (g : Graph) (key_in : ℤ) (variations_in : Finset ℤ)
    (key_out : ℤ) (variations_out : Finset ℤ) (skip_edges : Finset Edge) : Searcher :=
  ⟨rev, g.edges_in, g.edges_out, key_in, key_out, variations_in, variations_out,
    [], [], [], [], skip_edges⟩

/-- `Searcher::set_queue_in` (search.rs lines 309-328): seed a root for
every edge out of `key_in` whose dependencies are covered by the seed
variations.  A fold of pushes is the reverse of a `filterMap`. -/
def setQueueIn (sr : Searcher) : Searcher :=
  { sr with queue_in :=
      ((lookIn sr.edges_in sr.key_in).filterMap (fun e =>
        if e.variations_in ⊆ sr.variations_in then
          some (SState.new e.variations_in.card e.variations_out.card e none
            ((sr.variations_in \ e.variations_in) ∪ e.variations_out))
        else none)).reverse ++ sr.queue_in }

/-- `Searcher::set_queue_out` (search.rs lines 330-346): seed a root for
every edge into `key_out`, with no feasibility filter. -/
def setQueueOut (sr : Searcher) : Searcher :=
  { sr with queue_out :=
      ((lookOut sr.edges_out sr.key_out).map (fun e =>
        SState.new (e.variations_out ∩ sr.variations_out).card e.variations_in.card e none
          ((sr.variations_out \ e.variations_out) ∪ e.variations_in))).reverse ++
      sr.queue_out }

/-- `Searcher::add_queue_in` (search.rs lines 348-380): forward expansion
of a popped state — skip already-visited (edge, context) pairs, enforce
the dependency subset check, push the rest. -/
def addQueueIn (sr : Searcher) (state : SState) : Searcher :=
  { sr with queue_in :=
      ((lookIn sr.edges_in state.edge.key_out).filterMap (fun e =>
        if vmContains sr.visited_in e state.variations then none
        else if e.variations_in ⊆ state.variations then
          some (SState.new (state.variations ∩ e.variations_in).card
            e.variations_out.card e (some state)
            ((state.variations \ e.variations_in) ∪ e.variations_out))
        else none)).reverse ++ sr.queue_in }

/-- `Searcher::add_queue_out` (search.rs lines 382-406): backward
expansion — no dependency check going in reverse. -/
def addQueueOut (sr : Searcher) (state : SState) : Searcher :=
  { sr with queue_out :=
      ((lookOut sr.edges_out state.edge.key_in).filterMap (fun e =>
        if vmContains sr.visited_out e state.variations then none
        else
          some (SState.new (state.variations ∩ e.variations_out).card
            e.variations_in.card e (some state)
            ((state.variations \ e.variations_out) ∪ e.variations_in)))).reverse ++
      sr.queue_out }

/-- The variation set active before a state's edge was traversed: the
parent's variations, or the seed `variations_in` for a forward root
(the expression `match &state.parent ...` of search.rs lines 222-225 and
245-248). -/
def parentVarsIn (sr : Searcher) (state : SState) : Finset ℤ :=
  match state.parent with
  | some p => p.variations
  | none => sr.variations_in

/-- The backward analogue: the parent's variations, or the seed
`variations_out` for a backward root (search.rs lines 298-301). -/
def parentVarsOut (sr : Searcher) (state : SState) : Finset ℤ :=
  match state.parent with
  | some p => p.variations
  | none => sr.variations_out

/-- The meet-in-the-middle check of `search_forward` (search.rs lines
219-240): scan the backward states recorded at this edge; on the first
one whose variation set is covered by the forward parent's variations,
splice the two half-paths, omitting the current state (both halves meet
at the same edge). -/
def spliceForward (sr : Searcher) (state : SState) : Option (List Edge) :=
  match vmFind sr.visited_out state.edge with
  | none => none
  | some entries =>
    match (vmValues sr.rev entries).find?
        (fun opp => decide (opp.variations ⊆ parentVarsIn sr state)) with
    | none => none
    | some opp => some ((state.chainEdges.drop 1).reverse ++ opp.chainEdges)

/-- The meet-in-the-middle check of `search_backward` (search.rs lines
270-293), symmetric to `spliceForward`. -/
def spliceBackward (sr : Searcher) (state : SState) : Option (List Edge) :=
  match vmFind sr.visited_in state.edge with
  | none => none
  | some entries =>
    match (vmValues sr.rev entries).find?
        (fun opp => decide (state.variations ⊆ parentVarsIn sr opp)) with
    | none => none
    | some opp => some ((opp.chainEdges.drop 1).reverse ++ state.chainEdges)

/-- `Searcher::search_forward` (search.rs lines 194-253): pop, drop
excluded edges, goal test (superset of the wanted variations), splice
test, then record the visit under the fingerprint of the variations
active before this edge, and expand. -/
def searchForward (sr : Searcher) : Option (List Edge) × Searcher :=
  match popMin sr.queue_in with
  | none => (none, sr)
  | some (state, rest) =>
    let sr1 := { sr with queue_in := rest }
    if state.edge ∈ sr1.skip_edges then (none, sr1)
    else if state.edge.key_out = sr1.key_out ∧ sr1.variations_out ⊆ state.variations then
      (some state.chainEdges.reverse, sr1)
    else
      match spliceForward sr1 state with
      | some res => (some res, sr1)
      | none =>
        let fp := parentVarsIn sr1 state
        let sr2 := { sr1 with visited_in := vmInsert sr1.visited_in state.edge fp state }
        (none, addQueueIn sr2 state)

/-- `Searcher::search_backward` (search.rs lines 255-307): symmetric,
but the goal test requires the accumulated requirements to be a subset
of the seed variations, and root visits are fingerprinted with the seed
`variations_out`. -/
def searchBackward (sr : Searcher) : Option (List Edge) × Searcher :=
  match popMin sr.queue_out with
  | none => (none, sr)
  | some (state, rest) =>
    let sr1 := { sr with queue_out := rest }
    if state.edge ∈ sr1.skip_edges then (none, sr1)
    else if state.edge.key_in = sr1.key_in ∧ state.variations ⊆ sr1.variations_in then
      (some state.chainEdges, sr1)
    else
      match spliceBackward sr1 state with
      | some res => (some res, sr1)
      | none =>
        let fp := parentVarsOut sr1 state
        let sr2 := { sr1 with visited_out := vmInsert sr1.visited_out state.edge fp state }
        (none, addQueueOut sr2 state)

/-- The main loop of `Searcher::search` (search.rs lines 169-192):
advance the side whose queue is strictly smaller (forward on a tie only
when the backward queue is empty), stop when both queues are empty.  The
fuel argument bounds the number of iterations; the Rust loop runs until
the queues drain, so every theorem below quantifies over the fuel. -/
def searchLoop : ℕ → Searcher → Option (List Edge)
  | 0, _ => none
  | n + 1, sr =>
    if sr.queue_in.isEmpty = false ∧
        (sr.queue_in.length < sr.queue_out.length ∨ sr.queue_out.isEmpty = true) then
      match searchForward sr with
      | (some res, _) => some res
      | (none, sr') => searchLoop n sr'
    else if sr.queue_out.isEmpty = false then
      match searchBackward sr with
      | (some res, _) => some res
      | (none, sr') => searchLoop n sr'
    else none

/-- `Graph::search` (search.rs lines 443-461). -/
def Graph.search (g : Graph) (rev : Bool) (fuel : ℕ) (key_in : ℤ)
    (variations_in : Finset ℤ) (key_out : ℤ) (variations_out : Finset ℤ)
    (skip_edges : Finset Edge) : Option (List Edge) :=
  searchLoop fuel
    (setQueueOut (setQueueIn
      (Searcher.init rev g key_in variations_in key_out variations_out skip_edges)))

/-!
The executor layer (src/lib.rs).  Python objects are opaque to the core:
converter callables take and return a value and may fail with an
already-formatted message (the Rust code formats a raised error as
`<kind>: <message>` before storing it); revealer callables yield a set
of variation hashes for the original value.  The host's hashing is
modelled by passing hash values (`ℤ`) directly, and the runtime type
lookup `value.get_type().hash()` by a `typeOf` function.  Revealer
failures abort `convert` before the retry loop and are outside every
claim below, so revealers are modelled as total functions.
-/

/-- The state of a `Conversions` object (lib.rs lines 61-64): the graph,
the `payload hash -> callable` map and the `key hash -> revealers` map. -/
structure Registry (α : Type) where
  graph : Graph
  functions : ℤ → Option (α → Except String α)
  revealers : ℤ → List (α → Finset ℤ)

def Registry.empty (α : Type) : Registry α :=
  ⟨Graph.empty, fun _ => none, fun _ => []⟩

/-- `Conversions::add_conversion` (lib.rs lines 101-123).  The host
passes `cost` as an `isize`; the Rust code converts it to the internal
32-bit `Cost` with `try_into().expect("Cost needs to be an int")`, so a
cost outside the `i32` range aborts (modelled as `.error`), and any
in-range cost — negative ones included — is accepted and the edge is
inserted into both indices. -/
def addConversion (reg : Registry α) (cost : ℤ) (hash_in : ℤ)
    (hash_var_in : Finset ℤ) (hash_out : ℤ) (hash_var_out : Finset ℤ)
    (hash_func : ℤ) (function : α → Except String α) :
    Except String (Registry α) :=
  if -(2 ^ 31) ≤ cost ∧ cost < 2 ^ 31 then
    .ok ⟨reg.graph.add_edge cost hash_in hash_var_in hash_out hash_var_out hash_func,
      fun z => if z = hash_func then some function else reg.functions z,
      reg.revealers⟩
  else .error "Cost needs to be an int"

/-- Project the `edges_in` index out of an `add_conversion` result (used
to state registration facts without comparing opaque callables). -/
def addConversionEdges (res : Except String (Registry α)) : Option (List Edge) :=
  match res with
  | .ok reg => some reg.graph.edges_in
  | .error _ => none

/-- `Conversions::add_revealer` (lib.rs lines 141-144): append under the
key's hash, preserving registration order. -/
def addRevealer (reg : Registry α) (hash_in : ℤ) (function : α → Finset ℤ) :
    Registry α :=
  ⟨reg.graph, reg.functions,
    fun z => if z = hash_in then reg.revealers z ++ [function] else reg.revealers z⟩

/-- One attempt of the retry loop: the planned chain, the edges whose
converter was actually invoked (in order), and the failing edge with its
recorded message, if any. -/
structure Attempt where
  chain : List Edge
  executed : List Edge
  failed : Option (Edge × String)
deriving DecidableEq

/-- Result of folding a chain's callables over a value (lib.rs lines
220-248): every step succeeded, or a step failed with a message, or the
`expect("Function is there")` lookup panicked. -/
inductive RunOut (α : Type) where
  | done : α → List Edge → RunOut α
  | failedAt : Edge → String → List Edge → RunOut α
  | panicked : Edge → List Edge → RunOut α

def runChain (functions : ℤ → Option (α → Except String α)) (value : α) :
    List Edge → α → List Edge → RunOut α
  | [], cur, ex => .done cur ex
  | e :: rest, cur, ex =>
    match functions e.data with
    | none => .panicked e ex
    | some f =>
      match f cur with
      | .ok res => runChain functions value rest res (ex ++ [e])
      | .error msg => .failedAt e msg (ex ++ [e])

/-- How the retry loop ended: a completed chain, or the
`expect("Function is there")` panic, or (none) fell through to the error
reporting after the loop. -/
inductive LoopTerm (α : Type) where
  | success : α → LoopTerm α
  | panic : LoopTerm α

/-- The retry loop of `convert` (lib.rs lines 216-252): up to the given
number of attempts, plan with the current exclusion set; stop when no
path is returned; otherwise fold the callables over the original value;
a step failure records the message, excludes the failing edge and
retries.  Returns the attempts in order, how the loop ended, and each
`search` outcome in call order. -/
def convertLoop (reg : Registry α) (rev : Bool) (sfuel : ℕ) (hash_in : ℤ)
    (var_in : Finset ℤ) (hash_out : ℤ) (var_out : Finset ℤ) (value : α) :
    ℕ → Finset Edge → List Attempt × Option (LoopTerm α) × List (Option (List Edge))
  | 0, _ => ([], none, [])
  | n + 1, skip =>
    match reg.graph.search rev sfuel hash_in var_in hash_out var_out skip with
    | none => ([], none, [none])
    | some chain =>
      match runChain reg.functions value chain value [] with
      | .done v ex => ([⟨chain, ex, none⟩], some (.success v), [some chain])
      | .panicked _ ex => ([⟨chain, ex, none⟩], some .panic, [some chain])
      | .failedAt e msg ex =>
        let r := convertLoop reg rev sfuel hash_in var_in hash_out var_out value n
          (insert e skip)
        (⟨chain, ex, some (e, msg)⟩ :: r.1, r.2.1, some chain :: r.2.2)

/-- The messages recorded by the failed attempts, in order (the `errors`
vector of lib.rs line 215). -/
def attemptErrors (l : List Attempt) : List String :=
  l.filterMap (fun a => a.failed.map Prod.snd)

/-- Outcome of `convert` as visible to the caller: the converted value,
a `ConversionError`, the `TypeError` ("type mismatch"), or an abort of
the `expect("Function is there")` lookup. -/
inductive Outcome (α : Type) where
  | ok : α → Outcome α
  | conversionError : String → Outcome α
  | typeMismatch : String → Outcome α
  | panicked : String → Outcome α
deriving DecidableEq

/-- Everything observable about one `convert` call: its outcome, how
many revealers ran, the enriched variation set handed to the search, the
attempts and the raw search outcomes. -/
structure ConvertTrace (α : Type) where
  result : Outcome α
  revealerCalls : ℕ
  varsUsed : Finset ℤ
  attempts : List Attempt
  searches : List (Option (List Edge))
deriving DecidableEq

/-- `key_have` resolution (lib.rs lines 179-182): an explicit override,
or the hash of the value's runtime type. -/
def resolveKeyIn (type_have : Option ℤ) (typeOf : α → ℤ) (value : α) : ℤ :=
  match type_have with
  | some t => t
  | none => typeOf value

/-- Revealer enrichment (lib.rs lines 198-208): run every revealer
registered under the starting key on the original value, in registration
order, inserting all yielded tokens. -/
def revealAll {α : Type} (revs : List (α → Finset ℤ)) (value : α)
    (init : Finset ℤ) : Finset ℤ :=
  revs.foldl (fun acc f => acc ∪ f value) init

/-- `Conversions::convert` (lib.rs lines 169-265).  Mirrors the source
order: resolve the starting key and both variation sets, short-circuit
if key and (un-enriched) variations already match, otherwise run the
revealers unless `explicit`, then the retry loop (10 attempts), then the
error reporting.  `showVal`/`typeWantName` stand for the `Display`
formatting of the value and wanted type in the `TypeError` message. -/
def convert (reg : Registry α) (rev : Bool) (typeOf : α → ℤ) (showVal : α → String)
    (typeWantName : String) (value : α) (type_want : ℤ)
    (variations_want : Finset ℤ) (type_have : Option ℤ)
    (variations_have : Finset ℤ) (explicit : Bool) (sfuel : ℕ) : ConvertTrace α :=
  let hash_in := resolveKeyIn type_have typeOf value
  let hash_out := type_want
  let hash_var_out := variations_want
  let hash_var_in := variations_have
  if hash_in = hash_out ∧ hash_var_in = hash_var_out then
    ⟨.ok value, 0, hash_var_in, [], []⟩
  else
    let revs := if explicit then [] else reg.revealers hash_in
    let var_in := revealAll revs value hash_var_in
    let r := convertLoop reg rev sfuel hash_in var_in hash_out hash_var_out value 10 ∅
    let errors := attemptErrors r.1
    let result : Outcome α :=
      match r.2.1 with
      | some (.success v) => .ok v
      | some .panic => .panicked "Function is there"
      | none =>
        if errors ≠ [] then
          .conversionError
            ("Some problems occurred during the conversion process:\n" ++
              String.intercalate "\n" errors)
        else
          .typeMismatch
            ("Could not convert " ++ showVal value ++ " to " ++ typeWantName ++
              ". Perhaps some conversion steps are missing.")
    ⟨result, revs.length, var_in, r.1, r.2.2⟩

/-!
Specification-side predicates: what §8's "search soundness" invariant
asks of a returned chain, stated over the forward (consume `vars_in`,
add `vars_out`) semantics of variations.
-/

/-- The variation set after traversing an edge, as the forward search
computes it (search.rs line 376). -/
def stepVars (vars : Finset ℤ) (e : Edge) : Finset ℤ :=
  (vars \ e.variations_in) ∪ e.variations_out

/-- §8 search soundness for a chain: non-empty, starts at `key_in`,
successive edges key-adjacent, ends at `key_out`, every step's
`variations_in` covered by the variation set current at that step, and
the final accumulated set covering `variations_out`. -/
def soundChain (key_in : ℤ) (variations_in : Finset ℤ) (key_out : ℤ)
    (variations_out : Finset ℤ) : List Edge → Bool
  | [] => false
  | [e] =>
    decide (e.key_in = key_in) && decide (e.variations_in ⊆ variations_in) &&
      decide (e.key_out = key_out) &&
      decide (variations_out ⊆ stepVars variations_in e)
  | e :: rest =>
    decide (e.key_in = key_in) && decide (e.variations_in ⊆ variations_in) &&
      soundChain e.key_out (stepVars variations_in e) key_out variations_out rest

/-- Total cost of a chain (the sum a pure forward Dijkstra minimises). -/
def chainCost (es : List Edge) : ℤ :=
  es.foldl (fun a e => a + e.cost) 0

/-- Exclusion invariant on a frontier state's parent chain: no edge of
the partial path above the state's own edge is excluded (a root with an
excluded edge may sit in a queue; it is dropped when popped). -/
def TailOK (skip : Finset Edge) (s : SState) : Prop :=
  ∀ e ∈ s.chainEdges.drop 1, e ∉ skip

/-- Exclusion invariant on a full partial path, own edge included. -/
def AllOK (skip : Finset Edge) (s : SState) : Prop :=
  ∀ e ∈ s.chainEdges, e ∉ skip

/-- Every edge of a state's partial path satisfies `P`. -/
def ChainP (P : Edge → Prop) (s : SState) : Prop :=
  ∀ e ∈ s.chainEdges, P e

/-- The executed-edge list of a chain run, whatever its outcome. -/
def RunOut.executedList {α : Type} : RunOut α → List Edge
  | .done _ ex => ex
  | .failedAt _ _ ex => ex
  | .panicked _ ex => ex

/-- Does an outcome carry a converted value? -/
def Outcome.isOk {α : Type} : Outcome α → Bool
  | .ok _ => true
  | _ => false

/-!
Concrete instances used to settle individual claims.
-/

/-- C1 instance: two edges that both consume variation `5`. -/
def eA : Edge := ⟨1, 1, 2, 10, {5}, ∅⟩

def eB : Edge := ⟨1, 2, 3, 11, {5}, ∅⟩

def gC1 : Graph := (Graph.empty.add_edge 1 1 {5} 2 ∅ 10).add_edge 1 2 {5} 3 ∅ 11

/-- C2 instance: a direct edge `D` of cost 5 from key 1 to key 9,
beside a three-edge detour `P1, E, Q1` of total cost 7 and a junk edge
`X` into key 2 that only pads the backward queue. -/
def eD : Edge := ⟨5, 1, 9, 100, ∅, ∅⟩

def eP1 : Edge := ⟨3, 1, 2, 101, ∅, ∅⟩

def eE : Edge := ⟨1, 2, 3, 102, ∅, ∅⟩

def eQ1 : Edge := ⟨3, 3, 9, 103, ∅, ∅⟩

def eX : Edge := ⟨90, 8, 2, 104, ∅, ∅⟩

def gC2 : Graph :=
  ((((Graph.empty.add_edge 5 1 ∅ 9 ∅ 100).add_edge 3 1 ∅ 2 ∅ 101).add_edge
    1 2 ∅ 3 ∅ 102).add_edge 3 3 ∅ 9 ∅ 103).add_edge 90 8 ∅ 2 ∅ 104

/-- C5 instance: two forward prefixes `P1m`/`P2m` reach the middle edge
`Em` under different variation fingerprints, so the backward pop of `Em`
finds two recorded forward candidates that both pass the dependency
check; which one is spliced depends on the `values()` iteration order. -/
def eP1m : Edge := ⟨2, 1, 2, 301, ∅, ∅⟩

def eP2m : Edge := ⟨3, 1, 2, 302, ∅, {6}⟩

def eEm : Edge := ⟨10, 2, 3, 303, ∅, ∅⟩

def eRm : Edge := ⟨1000, 3, 9, 304, ∅, ∅⟩

def gC5 : Graph :=
  ((((((Graph.empty.add_edge 2 1 ∅ 2 ∅ 301).add_edge 3 1 ∅ 2 {6} 302).add_edge
    10 2 ∅ 3 ∅ 303).add_edge 1000 3 ∅ 9 ∅ 304).add_edge 5000 3 {6} 77 ∅ 305).add_edge
    6000 80 ∅ 9 ∅ 306).add_edge 6001 81 ∅ 9 ∅ 307

/-- C4 witness instance: two parallel edges from key 1 to key 2; the
cheaper one is excluded. -/
def eW1 : Edge := ⟨1, 1, 2, 401, ∅, ∅⟩

def eW2 : Edge := ⟨2, 1, 2, 402, ∅, ∅⟩

def gW : Graph := (Graph.empty.add_edge 1 1 ∅ 2 ∅ 401).add_edge 2 1 ∅ 2 ∅ 402

/-- The seeded searcher of the C4 witness search. -/
def srW : Searcher :=
  setQueueOut (setQueueIn (Searcher.init false gW 1 ∅ 2 ∅ {eW1}))

/-- C3 witness instance: one registered conversion whose converter
always fails with a pre-formatted message. -/
def fFail : Unit → Except String Unit := fun _ => .error "E: boom"

def eW3 : Edge := ⟨1, 1, 2, 500, ∅, ∅⟩

/-- The registry state `add_conversion(1, 1, [], 2, [], fFail)` leaves
behind (payload hash 500). -/
def regW3 : Registry Unit :=
  ⟨Graph.empty.add_edge 1 1 ∅ 2 ∅ 500,
    fun z => if z = 500 then some fFail else none,
    fun _ => []⟩

/-- C6 instance: a revealer registered under key 1 that yields variation
`5` for every value. -/
def regC6 : Registry Unit := addRevealer (Registry.empty Unit) 1 (fun _ => {5})

/-- C9 and C10 instance: an always-succeeding converter and the edge a
negative-cost registration produces. -/
def fOkUnit : Unit → Except String Unit := fun _ => .ok ()

def eNeg : Edge := ⟨-1, 1, 2, 600, ∅, ∅⟩

/-!
Membership lemmas about the queue and visited-map primitives, used by
the search invariants below.
-/

theorem popMin_mem : ∀ {q : List SState} {s : SState} {rest : List SState},
    popMin q = some (s, rest) → s ∈ q ∧ ∀ x ∈ rest, x ∈ q := by
  intro q
  induction q with
  | nil => intro s rest h; simp [popMin] at h
  | cons a t ih =>
    intro s rest h
    rw [popMin] at h
    split at h
    · obtain ⟨hs, hr⟩ := Prod.mk.injEq .. ▸ Option.some.inj h
      subst hs; subst hr
      exact ⟨List.mem_cons_self a t, by simp⟩
    · rename_i m r hp
      obtain ⟨hm, hr⟩ := ih hp
      split at h
      · obtain ⟨hs, hrest⟩ := Prod.mk.injEq .. ▸ Option.some.inj h
        subst hs; subst hrest
        refine ⟨List.mem_cons_of_mem a hm, ?_⟩
        intro x hx
        rcases List.mem_cons.mp hx with h' | h'
        · exact h' ▸ List.mem_cons_self a t
        · exact List.mem_cons_of_mem a (hr x h')
      · obtain ⟨hs, hrest⟩ := Prod.mk.injEq .. ▸ Option.some.inj h
        subst hs; subst hrest
        exact ⟨List.mem_cons_self a t, fun x hx => List.mem_cons_of_mem a hx⟩

theorem vmStates_cons (a : Edge × List (Finset ℤ × SState)) (t : VisitMap) :
    vmStates (a :: t) = a.2.map Prod.snd ++ vmStates t := rfl

theorem vmStates_nil : vmStates [] = [] := rfl

theorem vmFind_mem : ∀ {vm : VisitMap} {e : Edge} {l : List (Finset ℤ × SState)},
    vmFind vm e = some l → ∀ p ∈ l, p.2 ∈ vmStates vm := by
  intro vm
  induction vm with
  | nil => intro e l h; simp [vmFind, List.find?] at h
  | cons a t ih =>
    intro e l h p hp
    rw [vmFind] at h
    by_cases he : a.1 = e
    · rw [List.find?_cons_of_pos _ (by simp [he])] at h
      rw [vmStates_cons]
      refine List.mem_append_left _ ?_
      exact (Option.some.inj h) ▸ List.mem_map_of_mem Prod.snd hp
    · rw [List.find?_cons_of_neg _ (by simp [he])] at h
      rw [vmStates_cons]
      exact List.mem_append_right _ (ih (by rw [vmFind]; exact h) p hp)

theorem innerInsert_mem : ∀ {l : List (Finset ℤ × SState)} {fp : Finset ℤ}
    {s x : SState}, x ∈ (innerInsert fp s l).map Prod.snd →
    x = s ∨ x ∈ l.map Prod.snd := by
  intro l
  induction l with
  | nil => intro fp s x h; simp [innerInsert] at h; exact Or.inl h
  | cons a t ih =>
    intro fp s x h
    rw [innerInsert] at h
    by_cases hf : a.1 = fp
    · rw [if_pos hf] at h
      rcases List.mem_cons.mp h with h' | h'
      · exact Or.inl h'
      · exact Or.inr (List.mem_cons_of_mem _ h')
    · rw [if_neg hf] at h
      rcases List.mem_cons.mp h with h' | h'
      · exact Or.inr (h' ▸ List.mem_cons_self _ _)
      · rcases ih h' with h'' | h''
        · exact Or.inl h''
        · exact Or.inr (List.mem_cons_of_mem _ h'')

theorem vmStates_insert : ∀ {vm : VisitMap} {e : Edge} {fp : Finset ℤ}
    {s x : SState}, x ∈ vmStates (vmInsert vm e fp s) →
    x = s ∨ x ∈ vmStates vm := by
  intro vm
  induction vm with
  | nil =>
    intro e fp s x h
    rw [vmInsert] at h
    rw [vmStates_cons] at h
    simp [vmStates_nil] at h
    exact Or.inl h
  | cons a t ih =>
    intro e fp s x h
    rw [vmInsert] at h
    by_cases he : a.1 = e
    · rw [if_pos he] at h
      rw [vmStates_cons] at h
      rcases List.mem_append.mp h with h' | h'
      · rcases innerInsert_mem h' with h'' | h''
        · exact Or.inl h''
        · exact Or.inr (by rw [vmStates_cons]; exact List.mem_append_left _ h'')
      · exact Or.inr (by rw [vmStates_cons]; exact List.mem_append_right _ h')
    · rw [if_neg he] at h
      rw [vmStates_cons] at h
      rcases List.mem_append.mp h with h' | h'
      · exact Or.inr (by rw [vmStates_cons]; exact List.mem_append_left _ h')
      · rcases ih h' with h'' | h''
        · exact Or.inl h''
        · exact Or.inr (by rw [vmStates_cons]; exact List.mem_append_right _ h'')

theorem vmValues_mem {rev : Bool} {l : List (Finset ℤ × SState)} {x : SState}
    (h : x ∈ vmValues rev l) : x ∈ l.map Prod.snd := by
  cases rev with
  | false => simpa [vmValues] using h
  | true =>
    rw [vmValues] at h
    simp only [if_true] at h
    rcases List.mem_map.mp h with ⟨p, hp, he⟩
    exact he ▸ List.mem_map_of_mem Prod.snd (List.mem_reverse.mp hp)

theorem chainEdges_new_root (vc va : ℕ) (e : Edge) (vars : Finset ℤ) :
    (SState.new vc va e none vars).chainEdges = [e] := rfl

theorem chainEdges_new_child (vc va : ℕ) (e : Edge) (p : SState) (vars : Finset ℤ) :
    (SState.new vc va e (some p) vars).chainEdges = e :: p.chainEdges := by
  cases p with
  | mk c pvc pva pvs pe pp => rfl

theorem chainEdges_head : ∀ s : SState,
    s.chainEdges = s.edge :: s.chainEdges.drop 1 := by
  intro s
  cases s with
  | mk c vc va vs e p => cases p <;> rfl

/-!
Search invariants.  `TailOK skip s` says no edge of `s`'s parent chain
is excluded (queue states are only guaranteed this much: roots with an
excluded edge are seeded and then dropped at pop time); `AllOK skip s`
additionally covers `s`'s own edge (established by the pop-time check,
and required of every recorded visit).  `ChainP P s` says every edge of
`s`'s partial path satisfies `P` (used with `P e := e` registered in the
graph's indices).
-/

theorem allOK_of_tail {skip : Finset Edge} {s : SState} (h1 : s.edge ∉ skip)
    (h2 : TailOK skip s) : AllOK skip s := by
  intro e he
  rw [chainEdges_head s] at he
  rcases List.mem_cons.mp he with h' | h'
  · exact h' ▸ h1
  · exact h2 e h'

theorem spliceForward_parts {sr : Searcher} {state : SState} {res : List Edge}
    (h : spliceForward sr state = some res) :
    ∃ opp ∈ vmStates sr.visited_out,
      res = (state.chainEdges.drop 1).reverse ++ opp.chainEdges := by
  rw [spliceForward] at h
  split at h
  · exact absurd h (by simp)
  · rename_i entries hf
    split at h
    · exact absurd h (by simp)
    · rename_i opp hfind
      refine ⟨opp, ?_, (Option.some.inj h).symm⟩
      have h1 := List.mem_of_find?_eq_some hfind
      rcases List.mem_map.mp (vmValues_mem h1) with ⟨p, hp, he⟩
      exact he ▸ vmFind_mem hf p hp

theorem spliceBackward_parts {sr : Searcher} {state : SState} {res : List Edge}
    (h : spliceBackward sr state = some res) :
    ∃ opp ∈ vmStates sr.visited_in,
      res = (opp.chainEdges.drop 1).reverse ++ state.chainEdges := by
  rw [spliceBackward] at h
  split at h
  · exact absurd h (by simp)
  · rename_i entries hf
    split at h
    · exact absurd h (by simp)
    · rename_i opp hfind
      refine ⟨opp, ?_, (Option.some.inj h).symm⟩
      have h1 := List.mem_of_find?_eq_some hfind
      rcases List.mem_map.mp (vmValues_mem h1) with ⟨p, hp, he⟩
      exact he ▸ vmFind_mem hf p hp

theorem parentVarsIn_queue (sr : Searcher) (q : List SState) (s : SState) :
    parentVarsIn { sr with queue_in := q } s = parentVarsIn sr s := by
  cases hp : s.parent <;> simp [parentVarsIn, hp]

theorem parentVarsOut_queue (sr : Searcher) (q : List SState) (s : SState) :
    parentVarsOut { sr with queue_out := q } s = parentVarsOut sr s := by
  cases hp : s.parent <;> simp [parentVarsOut, hp]

/-- Exhaustive description of one `search_forward` step: the queue was
empty, or the popped state was excluded and dropped, or it passed the
goal test, or it spliced with a recorded backward state, or it was
recorded and expanded. -/
theorem searchForward_cases (sr : Searcher) :
    (popMin sr.queue_in = none ∧ searchForward sr = (none, sr)) ∨
    (∃ state rest, popMin sr.queue_in = some (state, rest) ∧
      ((state.edge ∈ sr.skip_edges ∧
          searchForward sr = (none, { sr with queue_in := rest })) ∨
       (state.edge ∉ sr.skip_edges ∧ state.edge.key_out = sr.key_out ∧
          sr.variations_out ⊆ state.variations ∧
          searchForward sr = (some state.chainEdges.reverse, { sr with queue_in := rest })) ∨
       (state.edge ∉ sr.skip_edges ∧
          ¬(state.edge.key_out = sr.key_out ∧ sr.variations_out ⊆ state.variations) ∧
          ∃ res, spliceForward { sr with queue_in := rest } state = some res ∧
            searchForward sr = (some res, { sr with queue_in := rest })) ∨
       (state.edge ∉ sr.skip_edges ∧
          ¬(state.edge.key_out = sr.key_out ∧ sr.variations_out ⊆ state.variations) ∧
          spliceForward { sr with queue_in := rest } state = none ∧
          searchForward sr = (none, addQueueIn
            { sr with
              queue_in := rest
              visited_in :=
                vmInsert sr.visited_in state.edge (parentVarsIn sr state) state }
            state)))) := by
  cases hpop : popMin sr.queue_in with
  | none =>
    left
    exact ⟨rfl, by rw [searchForward, hpop]⟩
  | some pr =>
    obtain ⟨state, rest⟩ := pr
    right
    refine ⟨state, rest, rfl, ?_⟩
    by_cases hskip : state.edge ∈ sr.skip_edges
    · left
      exact ⟨hskip, by rw [searchForward, hpop]; simp [hskip]⟩
    · by_cases hgoal : state.edge.key_out = sr.key_out ∧ sr.variations_out ⊆ state.variations
      · right; left
        exact ⟨hskip, hgoal.1, hgoal.2, by rw [searchForward, hpop]; simp [hskip, hgoal]⟩
      · cases hsp : spliceForward { sr with queue_in := rest } state with
        | some res =>
          right; right; left
          refine ⟨hskip, hgoal, res, rfl, ?_⟩
          rw [searchForward, hpop]
          simp [hskip, hgoal, hsp]
        | none =>
          right; right; right
          refine ⟨hskip, hgoal, rfl, ?_⟩
          rw [searchForward, hpop]
          simp [hskip, hgoal, hsp, parentVarsIn_queue]

/-- Exhaustive description of one `search_backward` step, symmetric to
`searchForward_cases`. -/
theorem searchBackward_cases (sr : Searcher) :
    (popMin sr.queue_out = none ∧ searchBackward sr = (none, sr)) ∨
    (∃ state rest, popMin sr.queue_out = some (state, rest) ∧
      ((state.edge ∈ sr.skip_edges ∧
          searchBackward sr = (none, { sr with queue_out := rest })) ∨
       (state.edge ∉ sr.skip_edges ∧ state.edge.key_in = sr.key_in ∧
          state.variations ⊆ sr.variations_in ∧
          searchBackward sr = (some state.chainEdges, { sr with queue_out := rest })) ∨
       (state.edge ∉ sr.skip_edges ∧
          ¬(state.edge.key_in = sr.key_in ∧ state.variations ⊆ sr.variations_in) ∧
          ∃ res, spliceBackward { sr with queue_out := rest } state = some res ∧
            searchBackward sr = (some res, { sr with queue_out := rest })) ∨
       (state.edge ∉ sr.skip_edges ∧
          ¬(state.edge.key_in = sr.key_in ∧ state.variations ⊆ sr.variations_in) ∧
          spliceBackward { sr with queue_out := rest } state = none ∧
          searchBackward sr = (none, addQueueOut
            { sr with
              queue_out := rest
              visited_out :=
                vmInsert sr.visited_out state.edge (parentVarsOut sr state) state }
            state)))) := by
  cases hpop : popMin sr.queue_out with
  | none =>
    left
    exact ⟨rfl, by rw [searchBackward, hpop]⟩
  | some pr =>
    obtain ⟨state, rest⟩ := pr
    right
    refine ⟨state, rest, rfl, ?_⟩
    by_cases hskip : state.edge ∈ sr.skip_edges
    · left
      exact ⟨hskip, by rw [searchBackward, hpop]; simp [hskip]⟩
    · by_cases hgoal : state.edge.key_in = sr.key_in ∧ state.variations ⊆ sr.variations_in
      · right; left
        exact ⟨hskip, hgoal.1, hgoal.2, by rw [searchBackward, hpop]; simp [hskip, hgoal]⟩
      · cases hsp : spliceBackward { sr with queue_out := rest } state with
        | some res =>
          right; right; left
          refine ⟨hskip, hgoal, res, rfl, ?_⟩
          rw [searchBackward, hpop]
          simp [hskip, hgoal, hsp]
        | none =>
          right; right; right
          refine ⟨hskip, hgoal, rfl, ?_⟩
          rw [searchBackward, hpop]
          simp [hskip, hgoal, hsp, parentVarsOut_queue]

theorem addQueueIn_mem {sr : Searcher} {state s : SState}
    (h : s ∈ (addQueueIn sr state).queue_in) :
    s ∈ sr.queue_in ∨ ∃ e ∈ lookIn sr.edges_in state.edge.key_out,
      s = SState.new (state.variations ∩ e.variations_in).card
        e.variations_out.card e (some state)
        ((state.variations \ e.variations_in) ∪ e.variations_out) := by
  rw [addQueueIn] at h
  simp only [List.mem_append, List.mem_reverse, List.mem_filterMap] at h
  rcases h with ⟨e, he, hfe⟩ | h
  · right
    refine ⟨e, he, ?_⟩
    split_ifs at hfe
    exact (Option.some.inj hfe).symm
  · exact Or.inl h

theorem addQueueIn_visited (sr : Searcher) (state : SState) :
    (addQueueIn sr state).visited_in = sr.visited_in := rfl

theorem addQueueOut_mem {sr : Searcher} {state s : SState}
    (h : s ∈ (addQueueOut sr state).queue_out) :
    s ∈ sr.queue_out ∨ ∃ e ∈ lookOut sr.edges_out state.edge.key_in,
      s = SState.new (state.variations ∩ e.variations_out).card
        e.variations_in.card e (some state)
        ((state.variations \ e.variations_out) ∪ e.variations_in) := by
  rw [addQueueOut] at h
  simp only [List.mem_append, List.mem_reverse, List.mem_filterMap] at h
  rcases h with ⟨e, he, hfe⟩ | h
  · right
    refine ⟨e, he, ?_⟩
    split_ifs at hfe
    exact (Option.some.inj hfe).symm
  · exact Or.inl h

theorem addQueueOut_visited (sr : Searcher) (state : SState) :
    (addQueueOut sr state).visited_out = sr.visited_out := rfl

theorem setQueueIn_mem {sr : Searcher} {s : SState}
    (h : s ∈ (setQueueIn sr).queue_in) :
    s ∈ sr.queue_in ∨ ∃ e ∈ lookIn sr.edges_in sr.key_in,
      s = SState.new e.variations_in.card e.variations_out.card e none
        ((sr.variations_in \ e.variations_in) ∪ e.variations_out) := by
  rw [setQueueIn] at h
  simp only [List.mem_append, List.mem_reverse, List.mem_filterMap] at h
  rcases h with ⟨e, he, hfe⟩ | h
  · right
    refine ⟨e, he, ?_⟩
    split_ifs at hfe
    exact (Option.some.inj hfe).symm
  · exact Or.inl h

theorem setQueueOut_mem {sr : Searcher} {s : SState}
    (h : s ∈ (setQueueOut sr).queue_out) :
    s ∈ sr.queue_out ∨ ∃ e ∈ lookOut sr.edges_out sr.key_out,
      s = SState.new (e.variations_out ∩ sr.variations_out).card
        e.variations_in.card e none
        ((sr.variations_out \ e.variations_out) ∪ e.variations_in) := by
  rw [setQueueOut] at h
  simp only [List.mem_append, List.mem_reverse, List.mem_map] at h
  rcases h with ⟨e, he, hfe⟩ | h
  · exact Or.inr ⟨e, he, hfe.symm⟩
  · exact Or.inl h

/-- One forward step preserves the exclusion invariant and any returned
chain avoids the exclusion set (the pop-time check covers the popped
state's own edge; parents and recorded visits are covered by the
invariant). -/
theorem searchForward_skip (sr : Searcher)
    (hqi : ∀ s ∈ sr.queue_in, TailOK sr.skip_edges s)
    (hvi : ∀ s ∈ vmStates sr.visited_in, AllOK sr.skip_edges s)
    (hvo : ∀ s ∈ vmStates sr.visited_out, AllOK sr.skip_edges s) :
    (∀ c, (searchForward sr).1 = some c → ∀ e ∈ c, e ∉ sr.skip_edges) ∧
    (∀ s ∈ (searchForward sr).2.queue_in, TailOK sr.skip_edges s) ∧
    (∀ s ∈ vmStates (searchForward sr).2.visited_in, AllOK sr.skip_edges s) := by
  rcases searchForward_cases sr with ⟨hpop, heq⟩ | ⟨state, rest, hpop, hcase⟩
  · rw [heq]
    exact ⟨by simp, hqi, hvi⟩
  · have hstate : TailOK sr.skip_edges state := hqi state (popMin_mem hpop).1
    have hrest : ∀ s ∈ rest, TailOK sr.skip_edges s :=
      fun s hs => hqi s ((popMin_mem hpop).2 s hs)
    rcases hcase with ⟨hskip, heq⟩ | ⟨hskip, hk, hv, heq⟩ |
      ⟨hskip, hng, res, hsp, heq⟩ | ⟨hskip, hng, hsp, heq⟩
    · rw [heq]
      exact ⟨by simp, hrest, hvi⟩
    · rw [heq]
      refine ⟨?_, hrest, hvi⟩
      intro c hc e he
      have hc' : state.chainEdges.reverse = c := Option.some.inj hc
      exact allOK_of_tail hskip hstate e (List.mem_reverse.mp (hc' ▸ he))
    · rw [heq]
      refine ⟨?_, hrest, hvi⟩
      intro c hc e he
      have hc' : res = c := Option.some.inj hc
      obtain ⟨opp, hopp, hres⟩ := spliceForward_parts hsp
      subst hc'
      rw [hres] at he
      rcases List.mem_append.mp he with h' | h'
      · exact hstate e (List.mem_reverse.mp h')
      · exact hvo opp hopp e h'
    · rw [heq]
      refine ⟨by simp, ?_, ?_⟩
      · intro s hs
        rcases addQueueIn_mem hs with h' | ⟨e, he, hnew⟩
        · exact hrest s h'
        · subst hnew
          intro x hx
          rw [chainEdges_new_child] at hx
          simp only [List.drop_succ_cons, List.drop_zero] at hx
          exact allOK_of_tail hskip hstate x hx
      · intro s hs
        rw [addQueueIn_visited] at hs
        rcases vmStates_insert hs with h' | h'
        · exact h' ▸ allOK_of_tail hskip hstate
        · exact hvi s h'

/-- One backward step preserves the exclusion invariant; symmetric to
`searchForward_skip`. -/
theorem searchBackward_skip (sr : Searcher)
    (hqo : ∀ s ∈ sr.queue_out, TailOK sr.skip_edges s)
    (hvi : ∀ s ∈ vmStates sr.visited_in, AllOK sr.skip_edges s)
    (hvo : ∀ s ∈ vmStates sr.visited_out, AllOK sr.skip_edges s) :
    (∀ c, (searchBackward sr).1 = some c → ∀ e ∈ c, e ∉ sr.skip_edges) ∧
    (∀ s ∈ (searchBackward sr).2.queue_out, TailOK sr.skip_edges s) ∧
    (∀ s ∈ vmStates (searchBackward sr).2.visited_out, AllOK sr.skip_edges s) := by
  rcases searchBackward_cases sr with ⟨hpop, heq⟩ | ⟨state, rest, hpop, hcase⟩
  · rw [heq]
    exact ⟨by simp, hqo, hvo⟩
  · have hstate : TailOK sr.skip_edges state := hqo state (popMin_mem hpop).1
    have hrest : ∀ s ∈ rest, TailOK sr.skip_edges s :=
      fun s hs => hqo s ((popMin_mem hpop).2 s hs)
    rcases hcase with ⟨hskip, heq⟩ | ⟨hskip, hk, hv, heq⟩ |
      ⟨hskip, hng, res, hsp, heq⟩ | ⟨hskip, hng, hsp, heq⟩
    · rw [heq]
      exact ⟨by simp, hrest, hvo⟩
    · rw [heq]
      refine ⟨?_, hrest, hvo⟩
      intro c hc e he
      have hc' : state.chainEdges = c := Option.some.inj hc
      exact allOK_of_tail hskip hstate e (hc' ▸ he)
    · rw [heq]
      refine ⟨?_, hrest, hvo⟩
      intro c hc e he
      have hc' : res = c := Option.some.inj hc
      obtain ⟨opp, hopp, hres⟩ := spliceBackward_parts hsp
      subst hc'
      rw [hres] at he
      rcases List.mem_append.mp he with h' | h'
      · have hod : (opp.chainEdges.drop 1) = opp.chainEdges.tail := by
          cases opp.chainEdges <;> rfl
        have : e ∈ opp.chainEdges := by
          have h'' := List.mem_reverse.mp h'
          exact List.mem_of_mem_drop h''
        exact hvi opp hopp e this
      · exact allOK_of_tail hskip hstate e h'
    · rw [heq]
      refine ⟨by simp, ?_, ?_⟩
      · intro s hs
        rcases addQueueOut_mem hs with h' | ⟨e, he, hnew⟩
        · exact hrest s h'
        · subst hnew
          intro x hx
          rw [chainEdges_new_child] at hx
          simp only [List.drop_succ_cons, List.drop_zero] at hx
          exact allOK_of_tail hskip hstate x hx
      · intro s hs
        rw [addQueueOut_visited] at hs
        rcases vmStates_insert hs with h' | h'
        · exact h' ▸ allOK_of_tail hskip hstate
        · exact hvo s h'

/-- A forward step touches only `queue_in` and `visited_in`. -/
theorem searchForward_frame (sr : Searcher) :
    (searchForward sr).2.edges_in = sr.edges_in ∧
    (searchForward sr).2.edges_out = sr.edges_out ∧
    (searchForward sr).2.queue_out = sr.queue_out ∧
    (searchForward sr).2.visited_out = sr.visited_out ∧
    (searchForward sr).2.skip_edges = sr.skip_edges := by
  rcases searchForward_cases sr with ⟨hpop, heq⟩ | ⟨state, rest, hpop, hcase⟩
  · rw [heq]
    exact ⟨rfl, rfl, rfl, rfl, rfl⟩
  · rcases hcase with ⟨hskip, heq⟩ | ⟨hskip, hk, hv, heq⟩ |
      ⟨hskip, hng, res, hsp, heq⟩ | ⟨hskip, hng, hsp, heq⟩ <;> rw [heq] <;>
      exact ⟨rfl, rfl, rfl, rfl, rfl⟩

/-- A backward step touches only `queue_out` and `visited_out`. -/
theorem searchBackward_frame (sr : Searcher) :
    (searchBackward sr).2.edges_in = sr.edges_in ∧
    (searchBackward sr).2.edges_out = sr.edges_out ∧
    (searchBackward sr).2.queue_in = sr.queue_in ∧
    (searchBackward sr).2.visited_in = sr.visited_in ∧
    (searchBackward sr).2.skip_edges = sr.skip_edges := by
  rcases searchBackward_cases sr with ⟨hpop, heq⟩ | ⟨state, rest, hpop, hcase⟩
  · rw [heq]
    exact ⟨rfl, rfl, rfl, rfl, rfl⟩
  · rcases hcase with ⟨hskip, heq⟩ | ⟨hskip, hk, hv, heq⟩ |
      ⟨hskip, hng, res, hsp, heq⟩ | ⟨hskip, hng, hsp, heq⟩ <;> rw [heq] <;>
      exact ⟨rfl, rfl, rfl, rfl, rfl⟩

/-- Loop invariant: whatever chain the main loop returns avoids the
exclusion set. -/
theorem searchLoop_skip : ∀ (fuel : ℕ) (sr : Searcher),
    (∀ s ∈ sr.queue_in, TailOK sr.skip_edges s) →
    (∀ s ∈ sr.queue_out, TailOK sr.skip_edges s) →
    (∀ s ∈ vmStates sr.visited_in, AllOK sr.skip_edges s) →
    (∀ s ∈ vmStates sr.visited_out, AllOK sr.skip_edges s) →
    ∀ c, searchLoop fuel sr = some c → ∀ e ∈ c, e ∉ sr.skip_edges := by
  intro fuel
  induction fuel with
  | zero => intro sr _ _ _ _ c hc; simp [searchLoop] at hc
  | succ n ih =>
    intro sr hqi hqo hvi hvo c hc
    rw [searchLoop] at hc
    split at hc
    · cases hsf : searchForward sr with
      | mk o sr' =>
        rw [hsf] at hc
        obtain ⟨hf1, hf2, hf3⟩ := searchForward_skip sr hqi hvi hvo
        obtain ⟨he1, he2, he3, he4, he5⟩ := searchForward_frame sr
        rw [hsf] at hf1 hf2 hf3 he1 he2 he3 he4 he5
        cases o with
        | some res =>
          exact (Option.some.inj hc) ▸ hf1 res rfl
        | none =>
          have := ih sr' (by rw [he5]; exact hf2) (by rw [he5, he3]; exact hqo)
            (by rw [he5]; exact hf3) (by rw [he5, he4]; exact hvo) c hc
          rw [he5] at this
          exact this
    · split at hc
      · cases hsb : searchBackward sr with
        | mk o sr' =>
          rw [hsb] at hc
          obtain ⟨hb1, hb2, hb3⟩ := searchBackward_skip sr hqo hvi hvo
          obtain ⟨he1, he2, he3, he4, he5⟩ := searchBackward_frame sr
          rw [hsb] at hb1 hb2 hb3 he1 he2 he3 he4 he5
          cases o with
          | some res =>
            exact (Option.some.inj hc) ▸ hb1 res rfl
          | none =>
            have := ih sr' (by rw [he5, he3]; exact hqi) (by rw [he5]; exact hb2)
              (by rw [he5, he4]; exact hvi) (by rw [he5]; exact hb3) c hc
            rw [he5] at this
            exact this
      · exact absurd hc (by simp)

theorem tailOK_root (skip : Finset Edge) (vc va : ℕ) (e : Edge) (vars : Finset ℤ) :
    TailOK skip (SState.new vc va e none vars) := by
  intro x hx
  rw [chainEdges_new_root] at hx
  simp at hx

/-- Exclusion soundness of the whole search: a returned chain never
contains an excluded edge (C4's first conjunct, for any exclusion set). -/
theorem search_skip_sound (g : Graph) (rev : Bool) (fuel : ℕ) (ki : ℤ)
    (vi : Finset ℤ) (ko : ℤ) (vo : Finset ℤ) (skip : Finset Edge) (c : List Edge)
    (h : g.search rev fuel ki vi ko vo skip = some c) : ∀ e ∈ c, e ∉ skip := by
  rw [Graph.search] at h
  refine searchLoop_skip fuel _ ?_ ?_ ?_ ?_ c h
  · intro s hs
    rcases setQueueIn_mem hs with h' | ⟨e, he, hnew⟩
    · simp [Searcher.init] at h'
    · exact hnew ▸ tailOK_root _ _ _ _ _
  · intro s hs
    rcases setQueueOut_mem hs with h' | ⟨e, he, hnew⟩
    · simp [setQueueIn, Searcher.init] at h'
    · exact hnew ▸ tailOK_root _ _ _ _ _
  · intro s hs
    simp [setQueueOut, setQueueIn, Searcher.init, vmStates_nil] at hs
  · intro s hs
    simp [setQueueOut, setQueueIn, Searcher.init, vmStates_nil] at hs

theorem lookIn_subset {l : List Edge} {k : ℤ} {e : Edge} (h : e ∈ lookIn l k) :
    e ∈ l := (List.mem_filter.mp h).1

theorem lookOut_subset {l : List Edge} {k : ℤ} {e : Edge} (h : e ∈ lookOut l k) :
    e ∈ l := (List.mem_filter.mp h).1

theorem chainP_of_mem_drop {P : Edge → Prop} {s : SState} (h : ChainP P s) :
    ∀ e ∈ s.chainEdges.drop 1, P e :=
  fun e he => h e (List.mem_of_mem_drop he)

/-- One forward step preserves "every edge on every partial path
satisfies `P`", for any `P` holding on all index entries. -/
theorem searchForward_chainP (P : Edge → Prop) (sr : Searcher)
    (hin : ∀ e ∈ sr.edges_in, P e)
    (hqi : ∀ s ∈ sr.queue_in, ChainP P s)
    (hvi : ∀ s ∈ vmStates sr.visited_in, ChainP P s)
    (hvo : ∀ s ∈ vmStates sr.visited_out, ChainP P s) :
    (∀ c, (searchForward sr).1 = some c → ∀ e ∈ c, P e) ∧
    (∀ s ∈ (searchForward sr).2.queue_in, ChainP P s) ∧
    (∀ s ∈ vmStates (searchForward sr).2.visited_in, ChainP P s) := by
  rcases searchForward_cases sr with ⟨hpop, heq⟩ | ⟨state, rest, hpop, hcase⟩
  · rw [heq]
    exact ⟨by simp, hqi, hvi⟩
  · have hstate : ChainP P state := hqi state (popMin_mem hpop).1
    have hrest : ∀ s ∈ rest, ChainP P s :=
      fun s hs => hqi s ((popMin_mem hpop).2 s hs)
    rcases hcase with ⟨hskip, heq⟩ | ⟨hskip, hk, hv, heq⟩ |
      ⟨hskip, hng, res, hsp, heq⟩ | ⟨hskip, hng, hsp, heq⟩
    · rw [heq]
      exact ⟨by simp, hrest, hvi⟩
    · rw [heq]
      refine ⟨?_, hrest, hvi⟩
      intro c hc e he
      exact hstate e (List.mem_reverse.mp ((Option.some.inj hc) ▸ he))
    · rw [heq]
      refine ⟨?_, hrest, hvi⟩
      intro c hc e he
      obtain ⟨opp, hopp, hres⟩ := spliceForward_parts hsp
      rw [← Option.some.inj hc, hres] at he
      rcases List.mem_append.mp he with h' | h'
      · exact chainP_of_mem_drop hstate e (List.mem_reverse.mp h')
      · exact hvo opp hopp e h'
    · rw [heq]
      refine ⟨by simp, ?_, ?_⟩
      · intro s hs
        rcases addQueueIn_mem hs with h' | ⟨e, he, hnew⟩
        · exact hrest s h'
        · subst hnew
          intro x hx
          rw [chainEdges_new_child] at hx
          rcases List.mem_cons.mp hx with h' | h'
          · exact h' ▸ hin e (lookIn_subset he)
          · exact hstate x h'
      · intro s hs
        rw [addQueueIn_visited] at hs
        rcases vmStates_insert hs with h' | h'
        · exact h' ▸ hstate
        · exact hvi s h'

/-- One backward step preserves the same property; symmetric. -/
theorem searchBackward_chainP (P : Edge → Prop) (sr : Searcher)
    (hout : ∀ e ∈ sr.edges_out, P e)
    (hqo : ∀ s ∈ sr.queue_out, ChainP P s)
    (hvi : ∀ s ∈ vmStates sr.visited_in, ChainP P s)
    (hvo : ∀ s ∈ vmStates sr.visited_out, ChainP P s) :
    (∀ c, (searchBackward sr).1 = some c → ∀ e ∈ c, P e) ∧
    (∀ s ∈ (searchBackward sr).2.queue_out, ChainP P s) ∧
    (∀ s ∈ vmStates (searchBackward sr).2.visited_out, ChainP P s) := by
  rcases searchBackward_cases sr with ⟨hpop, heq⟩ | ⟨state, rest, hpop, hcase⟩
  · rw [heq]
    exact ⟨by simp, hqo, hvo⟩
  · have hstate : ChainP P state := hqo state (popMin_mem hpop).1
    have hrest : ∀ s ∈ rest, ChainP P s :=
      fun s hs => hqo s ((popMin_mem hpop).2 s hs)
    rcases hcase with ⟨hskip, heq⟩ | ⟨hskip, hk, hv, heq⟩ |
      ⟨hskip, hng, res, hsp, heq⟩ | ⟨hskip, hng, hsp, heq⟩
    · rw [heq]
      exact ⟨by simp, hrest, hvo⟩
    · rw [heq]
      refine ⟨?_, hrest, hvo⟩
      intro c hc e he
      exact hstate e ((Option.some.inj hc) ▸ he)
    · rw [heq]
      refine ⟨?_, hrest, hvo⟩
      intro c hc e he
      obtain ⟨opp, hopp, hres⟩ := spliceBackward_parts hsp
      rw [← Option.some.inj hc, hres] at he
      rcases List.mem_append.mp he with h' | h'
      · exact chainP_of_mem_drop (hvi opp hopp) e (List.mem_reverse.mp h')
      · exact hstate e h'
    · rw [heq]
      refine ⟨by simp, ?_, ?_⟩
      · intro s hs
        rcases addQueueOut_mem hs with h' | ⟨e, he, hnew⟩
        · exact hrest s h'
        · subst hnew
          intro x hx
          rw [chainEdges_new_child] at hx
          rcases List.mem_cons.mp hx with h' | h'
          · exact h' ▸ hout e (lookOut_subset he)
          · exact hstate x h'
      · intro s hs
        rw [addQueueOut_visited] at hs
        rcases vmStates_insert hs with h' | h'
        · exact h' ▸ hstate
        · exact hvo s h'

/-- Loop invariant for `ChainP`. -/
theorem searchLoop_chainP (P : Edge → Prop) : ∀ (fuel : ℕ) (sr : Searcher),
    (∀ e ∈ sr.edges_in, P e) → (∀ e ∈ sr.edges_out, P e) →
    (∀ s ∈ sr.queue_in, ChainP P s) → (∀ s ∈ sr.queue_out, ChainP P s) →
    (∀ s ∈ vmStates sr.visited_in, ChainP P s) →
    (∀ s ∈ vmStates sr.visited_out, ChainP P s) →
    ∀ c, searchLoop fuel sr = some c → ∀ e ∈ c, P e := by
  intro fuel
  induction fuel with
  | zero => intro sr _ _ _ _ _ _ c hc; simp [searchLoop] at hc
  | succ n ih =>
    intro sr hin hout hqi hqo hvi hvo c hc
    rw [searchLoop] at hc
    split at hc
    · cases hsf : searchForward sr with
      | mk o sr' =>
        rw [hsf] at hc
        obtain ⟨hf1, hf2, hf3⟩ := searchForward_chainP P sr hin hqi hvi hvo
        obtain ⟨he1, he2, he3, he4, he5⟩ := searchForward_frame sr
        rw [hsf] at hf1 hf2 hf3 he1 he2 he3 he4 he5
        cases o with
        | some res => exact (Option.some.inj hc) ▸ hf1 res rfl
        | none =>
          exact ih sr' (by rw [he1]; exact hin) (by rw [he2]; exact hout) hf2
            (by rw [he3]; exact hqo) hf3 (by rw [he4]; exact hvo) c hc
    · split at hc
      · cases hsb : searchBackward sr with
        | mk o sr' =>
          rw [hsb] at hc
          obtain ⟨hb1, hb2, hb3⟩ := searchBackward_chainP P sr hout hqo hvi hvo
          obtain ⟨he1, he2, he3, he4, he5⟩ := searchBackward_frame sr
          rw [hsb] at hb1 hb2 hb3 he1 he2 he3 he4 he5
          cases o with
          | some res => exact (Option.some.inj hc) ▸ hb1 res rfl
          | none =>
            exact ih sr' (by rw [he1]; exact hin) (by rw [he2]; exact hout)
              (by rw [he3]; exact hqi) hb2 (by rw [he4]; exact hvi) hb3 c hc
      · exact absurd hc (by simp)

/-- Every edge of a returned chain satisfies any property holding on all
entries of the two graph indices; in particular it is a registered edge. -/
theorem search_chain_origin (P : Edge → Prop) (g : Graph) (rev : Bool) (fuel : ℕ)
    (ki : ℤ) (vi : Finset ℤ) (ko : ℤ) (vo : Finset ℤ) (skip : Finset Edge)
    (c : List Edge) (hin : ∀ e ∈ g.edges_in, P e) (hout : ∀ e ∈ g.edges_out, P e)
    (h : g.search rev fuel ki vi ko vo skip = some c) : ∀ e ∈ c, P e := by
  rw [Graph.search] at h
  refine searchLoop_chainP P fuel _ hin hout ?_ ?_ ?_ ?_ c h
  · intro s hs
    rcases setQueueIn_mem hs with h' | ⟨e, he, hnew⟩
    · simp [Searcher.init] at h'
    · subst hnew
      intro x hx
      rw [chainEdges_new_root] at hx
      rw [List.mem_singleton.mp hx]
      exact hin e (lookIn_subset he)
  · intro s hs
    rcases setQueueOut_mem hs with h' | ⟨e, he, hnew⟩
    · simp [setQueueIn, Searcher.init] at h'
    · subst hnew
      intro x hx
      rw [chainEdges_new_root] at hx
      rw [List.mem_singleton.mp hx]
      exact hout e (lookOut_subset he)
  · intro s hs
    simp [setQueueOut, setQueueIn, Searcher.init, vmStates_nil] at hs
  · intro s hs
    simp [setQueueOut, setQueueIn, Searcher.init, vmStates_nil] at hs

theorem runChain_exec_sub {α : Type} (f : ℤ → Option (α → Except String α))
    (value : α) : ∀ (chain : List Edge) (cur : α) (ex : List Edge),
    ∀ x ∈ (runChain f value chain cur ex).executedList, x ∈ ex ∨ x ∈ chain := by
  intro chain
  induction chain with
  | nil => intro cur ex x hx; exact Or.inl hx
  | cons e rest ih =>
    intro cur ex x hx
    rw [runChain] at hx
    cases hf : f e.data with
    | none =>
      rw [hf] at hx
      exact Or.inl hx
    | some g =>
      rw [hf] at hx
      dsimp only at hx
      cases hg : g cur with
      | ok res =>
        rw [hg] at hx
        dsimp only at hx
        rcases ih res (ex ++ [e]) x hx with h' | h'
        · rcases List.mem_append.mp h' with h'' | h''
          · exact Or.inl h''
          · exact Or.inr (List.mem_cons_self e rest |> fun _ =>
              (List.mem_singleton.mp h'') ▸ List.mem_cons_self e rest)
        · exact Or.inr (List.mem_cons_of_mem e h')
      | error msg =>
        rw [hg] at hx
        dsimp only at hx
        rcases List.mem_append.mp hx with h'' | h''
        · exact Or.inl h''
        · exact Or.inr ((List.mem_singleton.mp h'') ▸ List.mem_cons_self e rest)

theorem runChain_failed_mem {α : Type} (f : ℤ → Option (α → Except String α))
    (value : α) : ∀ (chain : List Edge) (cur : α) (ex : List Edge)
    (e : Edge) (m : String) (ex' : List Edge),
    runChain f value chain cur ex = .failedAt e m ex' → e ∈ chain := by
  intro chain
  induction chain with
  | nil => intro cur ex e m ex' h; exact absurd h (by rw [runChain]; simp)
  | cons a rest ih =>
    intro cur ex e m ex' h
    rw [runChain] at h
    cases hf : f a.data with
    | none => rw [hf] at h; exact absurd h (by simp)
    | some g =>
      rw [hf] at h
      dsimp only at h
      cases hg : g cur with
      | ok res =>
        rw [hg] at h
        dsimp only at h
        exact List.mem_cons_of_mem a (ih res (ex ++ [a]) e m ex' h)
      | error msg =>
        rw [hg] at h
        dsimp only at h
        obtain ⟨he, -, -⟩ := RunOut.failedAt.inj h
        exact he ▸ List.mem_cons_self a rest

theorem runChain_no_panic {α : Type} (f : ℤ → Option (α → Except String α))
    (value : α) : ∀ (chain : List Edge) (cur : α) (ex : List Edge),
    (∀ e ∈ chain, (f e.data).isSome = true) →
    ∀ (e : Edge) (ex' : List Edge),
      runChain f value chain cur ex ≠ .panicked e ex' := by
  intro chain
  induction chain with
  | nil => intro cur ex _ e ex' h; exact absurd h (by rw [runChain]; simp)
  | cons a rest ih =>
    intro cur ex hwf e ex' h
    rw [runChain] at h
    cases hf : f a.data with
    | none =>
      have := hwf a (List.mem_cons_self a rest)
      rw [hf] at this
      simp at this
    | some g =>
      rw [hf] at h
      dsimp only at h
      cases hg : g cur with
      | ok res =>
        rw [hg] at h
        dsimp only at h
        exact ih res (ex ++ [a]) (fun x hx => hwf x (List.mem_cons_of_mem a hx)) e ex' h
      | error msg =>
        rw [hg] at h
        dsimp only at h
        exact absurd h (by simp)

/-- Every attempt of the retry loop plans around the exclusion set it
started from, and only executes edges of its own planned chain. -/
theorem convertLoop_skip {α : Type} (reg : Registry α) (rev : Bool) (sfuel : ℕ)
    (ki : ℤ) (vi : Finset ℤ) (ko : ℤ) (vo : Finset ℤ) (value : α) :
    ∀ (n : ℕ) (skip : Finset Edge),
    ∀ a ∈ (convertLoop reg rev sfuel ki vi ko vo value n skip).1,
      (∀ x ∈ skip, x ∉ a.chain) ∧ (∀ x ∈ a.executed, x ∈ a.chain) := by
  intro n
  induction n with
  | zero => intro skip a ha; rw [convertLoop] at ha; exact absurd ha (by simp)
  | succ n ih =>
    intro skip a ha
    rw [convertLoop] at ha
    cases hs : reg.graph.search rev sfuel ki vi ko vo skip with
    | none => rw [hs] at ha; simp at ha
    | some chain =>
      rw [hs] at ha
      dsimp only at ha
      cases hr : runChain reg.functions value chain value [] with
      | done v ex =>
        rw [hr] at ha
        dsimp only at ha
        have hae := List.mem_singleton.mp ha
        subst hae
        refine ⟨?_, ?_⟩
        · intro x hx hchain
          exact search_skip_sound _ _ _ _ _ _ _ _ _ hs x hchain hx
        · intro x hx
          have h2 := runChain_exec_sub reg.functions value chain value [] x
            (by rw [hr]; exact hx)
          rcases h2 with h' | h'
          · simp at h'
          · exact h'
      | panicked e ex =>
        rw [hr] at ha
        dsimp only at ha
        have hae := List.mem_singleton.mp ha
        subst hae
        refine ⟨?_, ?_⟩
        · intro x hx hchain
          exact search_skip_sound _ _ _ _ _ _ _ _ _ hs x hchain hx
        · intro x hx
          have h2 := runChain_exec_sub reg.functions value chain value [] x
            (by rw [hr]; exact hx)
          rcases h2 with h' | h'
          · simp at h'
          · exact h'
      | failedAt e msg ex =>
        rw [hr] at ha
        dsimp only at ha
        rcases List.mem_cons.mp ha with hae | hatail
        · subst hae
          refine ⟨?_, ?_⟩
          · intro x hx hchain
            exact search_skip_sound _ _ _ _ _ _ _ _ _ hs x hchain hx
          · intro x hx
            have h2 := runChain_exec_sub reg.functions value chain value [] x
              (by rw [hr]; exact hx)
            rcases h2 with h' | h'
            · simp at h'
            · exact h'
        · obtain ⟨h1, h2⟩ := ih (insert e skip) a hatail
          exact ⟨fun x hx => h1 x (Finset.mem_insert_of_mem hx), h2⟩

/-- An edge whose converter failed at attempt `i` is not in the chain of
any later attempt of the same loop run. -/
theorem convertLoop_pairwise {α : Type} (reg : Registry α) (rev : Bool) (sfuel : ℕ)
    (ki : ℤ) (vi : Finset ℤ) (ko : ℤ) (vo : Finset ℤ) (value : α) :
    ∀ (n : ℕ) (skip : Finset Edge) (i j : ℕ) (a b : Attempt) (e : Edge) (m : String),
    (convertLoop reg rev sfuel ki vi ko vo value n skip).1.get? i = some a →
    (convertLoop reg rev sfuel ki vi ko vo value n skip).1.get? j = some b →
    i < j → a.failed = some (e, m) → e ∉ b.chain := by
  intro n
  induction n with
  | zero =>
    intro skip i j a b e m hi hj hij hf
    rw [convertLoop] at hi
    simp at hi
  | succ n ih =>
    intro skip i j a b e m hi hj hij hf
    rw [convertLoop] at hi hj
    cases hs : reg.graph.search rev sfuel ki vi ko vo skip with
    | none => rw [hs] at hi; simp at hi
    | some chain =>
      rw [hs] at hi hj
      dsimp only at hi hj
      cases hr : runChain reg.functions value chain value [] with
      | done v ex =>
        rw [hr] at hi hj
        dsimp only at hi hj
        have hj1 : j = 0 := by
          by_contra hne
          rcases Nat.exists_eq_succ_of_ne_zero hne with ⟨j', rfl⟩
          rw [List.get?_cons_succ] at hj
          simp at hj
        omega
      | panicked e2 ex =>
        rw [hr] at hi hj
        dsimp only at hi hj
        have hj1 : j = 0 := by
          by_contra hne
          rcases Nat.exists_eq_succ_of_ne_zero hne with ⟨j', rfl⟩
          rw [List.get?_cons_succ] at hj
          simp at hj
        omega
      | failedAt e2 msg ex =>
        rw [hr] at hi hj
        dsimp only at hi hj
        rcases Nat.exists_eq_succ_of_ne_zero (Nat.pos_iff_ne_zero.mp
          (Nat.lt_of_le_of_lt (Nat.zero_le i) hij)) with ⟨j', rfl⟩
        rw [List.get?_cons_succ] at hj
        cases i with
        | zero =>
          rw [List.get?_cons_zero] at hi
          have ha := Option.some.inj hi
          subst ha
          dsimp only at hf
          obtain ⟨he, -⟩ := Prod.mk.injEq .. ▸ Option.some.inj hf
          have hb := List.get?_mem hj
          rw [← he]
          exact (convertLoop_skip reg rev sfuel ki vi ko vo value n
            (insert e2 skip) b hb).1 e2 (Finset.mem_insert_self e2 skip)
        | succ i' =>
          rw [List.get?_cons_succ] at hi
          exact ih (insert e2 skip) i' j' a b e m hi hj (Nat.lt_of_succ_lt_succ hij) hf

/-- If the loop fell through (no success, no panic), every recorded
attempt failed. -/
theorem convertLoop_none_failed {α : Type} (reg : Registry α) (rev : Bool)
    (sfuel : ℕ) (ki : ℤ) (vi : Finset ℤ) (ko : ℤ) (vo : Finset ℤ) (value : α) :
    ∀ (n : ℕ) (skip : Finset Edge),
    (convertLoop reg rev sfuel ki vi ko vo value n skip).2.1 = none →
    ∀ a ∈ (convertLoop reg rev sfuel ki vi ko vo value n skip).1,
      a.failed ≠ none := by
  intro n
  induction n with
  | zero => intro skip _ a ha; rw [convertLoop] at ha; exact absurd ha (by simp)
  | succ n ih =>
    intro skip ht a ha
    rw [convertLoop] at ht ha
    cases hs : reg.graph.search rev sfuel ki vi ko vo skip with
    | none => rw [hs] at ha; simp at ha
    | some chain =>
      rw [hs] at ht ha
      dsimp only at ht ha
      cases hr : runChain reg.functions value chain value [] with
      | done v ex => rw [hr] at ht; simp at ht
      | panicked e ex => rw [hr] at ht; simp at ht
      | failedAt e msg ex =>
        rw [hr] at ht ha
        dsimp only at ht ha
        rcases List.mem_cons.mp ha with hae | hatail
        · subst hae; simp
        · exact ih (insert e skip) ht a hatail

/-- With every registered edge's converter present, the
`expect("Function is there")` lookup cannot abort. -/
theorem convertLoop_no_panic {α : Type} (reg : Registry α) (rev : Bool)
    (sfuel : ℕ) (ki : ℤ) (vi : Finset ℤ) (ko : ℤ) (vo : Finset ℤ) (value : α)
    (hin : ∀ e ∈ reg.graph.edges_in, (reg.functions e.data).isSome = true)
    (hout : ∀ e ∈ reg.graph.edges_out, (reg.functions e.data).isSome = true) :
    ∀ (n : ℕ) (skip : Finset Edge),
    (convertLoop reg rev sfuel ki vi ko vo value n skip).2.1 ≠ some .panic := by
  intro n
  induction n with
  | zero => intro skip h; rw [convertLoop] at h; simp at h
  | succ n ih =>
    intro skip h
    rw [convertLoop] at h
    cases hs : reg.graph.search rev sfuel ki vi ko vo skip with
    | none => rw [hs] at h; simp at h
    | some chain =>
      rw [hs] at h
      dsimp only at h
      have hchain : ∀ e ∈ chain, (reg.functions e.data).isSome = true :=
        search_chain_origin _ _ _ _ _ _ _ _ _ _ hin hout hs
      cases hr : runChain reg.functions value chain value [] with
      | done v ex => rw [hr] at h; simp at h
      | panicked e ex =>
        exact runChain_no_panic reg.functions value chain value [] hchain e ex hr
      | failedAt e msg ex =>
        rw [hr] at h
        dsimp only at h
        exact ih (insert e skip) h

/-- The loop issues at most `n` searches, and a no-path answer can only
be the last one (the loop breaks on it at once). -/
theorem convertLoop_searches {α : Type} (reg : Registry α) (rev : Bool)
    (sfuel : ℕ) (ki : ℤ) (vi : Finset ℤ) (ko : ℤ) (vo : Finset ℤ) (value : α) :
    ∀ (n : ℕ) (skip : Finset Edge),
    (convertLoop reg rev sfuel ki vi ko vo value n skip).2.2.length ≤ n ∧
    ∀ x ∈ (convertLoop reg rev sfuel ki vi ko vo value n skip).2.2.dropLast,
      x ≠ none := by
  intro n
  induction n with
  | zero =>
    intro skip
    rw [convertLoop]
    exact ⟨Nat.le_refl 0, by simp⟩
  | succ n ih =>
    intro skip
    rw [convertLoop]
    cases hs : reg.graph.search rev sfuel ki vi ko vo skip with
    | none => exact ⟨by simp, by simp⟩
    | some chain =>
      dsimp only
      cases hr : runChain reg.functions value chain value [] with
      | done v ex => exact ⟨by simp, by simp⟩
      | panicked e ex => exact ⟨by simp, by simp⟩
      | failedAt e msg ex =>
        dsimp only
        obtain ⟨hlen, hdl⟩ := ih (insert e skip)
        refine ⟨by simpa using Nat.succ_le_succ hlen, ?_⟩
        intro x hx
        cases hss : (convertLoop reg rev sfuel ki vi ko vo value n (insert e skip)).2.2 with
        | nil => rw [hss] at hx; simp at hx
        | cons s0 st =>
          rw [hss] at hx
          have hdc : (some chain :: s0 :: st).dropLast = some chain :: (s0 :: st).dropLast := rfl
          rw [hdc] at hx
          rcases List.mem_cons.mp hx with h' | h'
          · rw [h']; simp
          · exact hdl x (by rw [hss]; exact h')

theorem attemptErrors_nil {l : List Attempt} (hf : ∀ a ∈ l, a.failed ≠ none)
    (he : attemptErrors l = []) : l = [] := by
  cases l with
  | nil => rfl
  | cons a t =>
    have ha := hf a (List.mem_cons_self a t)
    cases hfa : a.failed with
    | none => exact absurd hfa ha
    | some p =>
      rw [attemptErrors, List.filterMap] at he
      rw [hfa] at he
      simp at he

/-!
Claim theorems.
-/

/-- C1.  The claimed search soundness invariant fails on the code: on the
graph with edges `A = (cost 1, 1→2, vars_in {5}, vars_out {})` and
`B = (cost 1, 2→3, vars_in {5}, vars_out {})`, the call
`search(1, {5}, 3, {}, {})` returns the chain `[A, B]` through the
backward goal test, although `B`'s required variation `5` was already
consumed by `A` and is not part of the variation set current at `B`'s
step, so the chain violates the claimed per-step dependency condition
(here shown both via `soundChain` and directly). -/
theorem c1_search_soundness_fails :
    gC1.search false 10 1 {5} 3 ∅ ∅ = some [eA, eB] ∧
    soundChain 1 {5} 3 ∅ [eA, eB] = false ∧
    ¬ eB.variations_in ⊆ stepVars {5} eA := by
  decide

/-- C2.  Cost optimality fails on the code: on `gC2` the bidirectional
search returns the spliced chain `[P1, E, Q1]` of total cost 7 at the
first meeting of the two frontiers, although the single edge `[D]` of
cost 5 is a feasible forward chain for the same query, so the returned
chain is not minimal among the chains a pure forward Dijkstra would
find. -/
theorem c2_cost_optimality_fails :
    gC2.search false 20 1 ∅ 9 ∅ ∅ = some [eP1, eE, eQ1] ∧
    soundChain 1 ∅ 9 ∅ [eD] = true ∧
    chainCost [eD] < chainCost [eP1, eE, eQ1] := by
  decide

/-- C5.  Determinism fails on the code: on `gC5` the chain returned by
`search(1, {4}, 9, {}, {})` depends on the iteration order of
`visited_in[E].values()` (search.rs line 272), which Rust's `HashMap`
randomizes per process and which fixed registry contents, inputs and
callable-identity ordering do not determine: with insertion-order
iteration the search returns `[P1m, Em, Rm]`, with the reversed order it
returns `[P2m, Em, Rm]`. -/
theorem c5_determinism_fails :
    gC5.search false 40 1 {4} 9 ∅ ∅ = some [eP1m, eEm, eRm] ∧
    gC5.search true 40 1 {4} 9 ∅ ∅ = some [eP2m, eEm, eRm] ∧
    gC5.search false 40 1 {4} 9 ∅ ∅ ≠ gC5.search true 40 1 {4} 9 ∅ ∅ := by
  decide

/-- C6 counterexample.  The claim says revealers run before the identity
short-circuit, so that `convert` returns the value unchanged only if the
revealer-enriched variation set equals `vars_want`.  On `regC6` (a
revealer under key 1 yielding variation 5), the call
`convert((), key_want = 1, vars_want = {}, key_have = 1, vars_have = {},
explicit = false)` returns the value unchanged with no search and with
zero revealer invocations, although the revealer-enriched set `{5}`
differs from `vars_want = {}` — the short-circuit is evaluated first, on
the un-enriched set. -/
theorem c6_counterexample :
    convert regC6 false (fun _ => 1) (fun _ => "()") "T" () 1 ∅ (some 1) ∅ false 10 =
      ⟨.ok (), 0, ∅, [], []⟩ ∧
    (regC6.revealers 1).length = 1 ∧
    revealAll (regC6.revealers 1) () ∅ ≠ (∅ : Finset ℤ) := by
  refine ⟨?_, by decide, by decide⟩
  decide

/-- C7.  Identity: with `explicit = true`, `key_have = key_want = k` and
`vars_have = vars_want = V`, `convert` returns the value unchanged with
no revealer invocation, no search and no converter invocation (the whole
trace is the short-circuit trace). -/
theorem c7_identity {α : Type} (reg : Registry α) (rev : Bool) (typeOf : α → ℤ)
    (showVal : α → String) (twn : String) (v : α) (k : ℤ) (V : Finset ℤ)
    (sfuel : ℕ) :
    convert reg rev typeOf showVal twn v k V (some k) V true sfuel =
      ⟨.ok v, 0, V, [], []⟩ := by
  rw [convert]
  dsimp only
  rw [if_pos ⟨rfl, rfl⟩]

/-- C9 counterexample.  The claim says a negative cost is rejected at
registration time and no negative-cost edge enters the graph; in fact
`add_conversion(-1, ...)` succeeds and the edge with cost `-1` is
inserted into the `edges_in` index. -/
theorem c9_counterexample :
    addConversionEdges
      (addConversion (Registry.empty Unit) (-1) 1 ∅ 2 ∅ 600 fOkUnit) = some [eNeg] := by
  decide

/-- C9 amended.  What the code actually enforces: any cost inside the
signed 32-bit range — negative costs included — is accepted by
`add_conversion` and the edge is inserted; only costs outside that range
are rejected (by the `expect` abort modelled as the error branch). -/
theorem c9_amended {α : Type} (reg : Registry α) (cost ki ko hf : ℤ)
    (vi vo : Finset ℤ) (f : α → Except String α)
    (h1 : -(2 ^ 31) ≤ cost) (h2 : cost < 2 ^ 31) :
    addConversionEdges (addConversion reg cost ki vi ko vo hf f) =
      some (insertEdge reg.graph.edges_in ⟨cost, ki, ko, hf, vi, vo⟩) := by
  rw [addConversion, if_pos ⟨h1, h2⟩, addConversionEdges]
  rfl

/-- C9 witness: the amended statement at the concrete negative cost -1
on the empty registry. -/
theorem c9_amended_witness :
    (-(2 ^ 31) ≤ (-1 : ℤ)) ∧ ((-1 : ℤ) < 2 ^ 31) ∧
    addConversionEdges
      (addConversion (Registry.empty Unit) (-1) 1 ∅ 2 ∅ 600 fOkUnit) = some [eNeg] := by
  refine ⟨by decide, by decide, ?_⟩
  have h := c9_amended (Registry.empty Unit) (-1) 1 2 600 ∅ ∅ fOkUnit
    (by decide) (by decide)
  simpa [Registry.empty, Graph.empty, insertEdge, eNeg] using h

/-- C10.  The host cost (`isize`) is narrowed to the internal 32-bit
`Cost` with `try_into().expect("Cost needs to be an int")`: every cost
outside the signed 32-bit range aborts with that message instead of a
recoverable registration error, and every in-range cost — negative ones
included — is accepted and its edge inserted. -/
theorem c10_cost_narrowing {α : Type} (reg : Registry α) (cost ki ko hf : ℤ)
    (vi vo : Finset ℤ) (f : α → Except String α) :
    (cost < -(2 ^ 31) ∨ 2 ^ 31 ≤ cost →
      addConversion reg cost ki vi ko vo hf f = .error "Cost needs to be an int") ∧
    (-(2 ^ 31) ≤ cost ∧ cost < 2 ^ 31 →
      addConversionEdges (addConversion reg cost ki vi ko vo hf f) =
        some (insertEdge reg.graph.edges_in ⟨cost, ki, ko, hf, vi, vo⟩)) := by
  constructor
  · intro hr
    rw [addConversion, if_neg (by omega)]
  · intro hr
    rw [addConversion, if_pos hr, addConversionEdges]
    rfl

/-- C10 witness: the abort branch at cost `2^31` and the accepting
branch at cost `-5`, both on the empty registry. -/
theorem c10_cost_narrowing_witness :
    ((2 : ℤ) ^ 31 ≤ 2 ^ 31) ∧
    addConversion (Registry.empty Unit) (2 ^ 31) 1 ∅ 2 ∅ 601 fOkUnit =
      .error "Cost needs to be an int" ∧
    (-(2 ^ 31) ≤ (-5 : ℤ) ∧ (-5 : ℤ) < 2 ^ 31) ∧
    addConversionEdges (addConversion (Registry.empty Unit) (-5) 1 ∅ 2 ∅ 601 fOkUnit) =
      some [⟨-5, 1, 2, 601, ∅, ∅⟩] := by
  refine ⟨by decide, ?_, ⟨by decide, by decide⟩, ?_⟩
  · exact (c10_cost_narrowing (Registry.empty Unit) (2 ^ 31) 1 2 601 ∅ ∅ fOkUnit).1
      (Or.inr (by decide))
  · have h := (c10_cost_narrowing (Registry.empty Unit) (-5) 1 2 601 ∅ ∅ fOkUnit).2
      ⟨by decide, by decide⟩
    simpa [Registry.empty, Graph.empty, insertEdge] using h

/-- C6 amended.  What the code actually does (lib.rs lines 193-208): the
identity short-circuit is evaluated first, on the un-enriched
`vars_have`; only when it does not fire (and `explicit` is false) is
every revealer registered under the starting key run on the original
value, and their yields joined into the variation set handed to the
search. -/
theorem c6_amended {α : Type} (reg : Registry α) (rev : Bool) (typeOf : α → ℤ)
    (showVal : α → String) (twn : String) (value : α) (tw : ℤ) (vw : Finset ℤ)
    (th : Option ℤ) (vh : Finset ℤ) (sfuel : ℕ) :
    (resolveKeyIn th typeOf value = tw ∧ vh = vw →
      convert reg rev typeOf showVal twn value tw vw th vh false sfuel =
        ⟨.ok value, 0, vh, [], []⟩) ∧
    (¬(resolveKeyIn th typeOf value = tw ∧ vh = vw) →
      (convert reg rev typeOf showVal twn value tw vw th vh false sfuel).revealerCalls =
        (reg.revealers (resolveKeyIn th typeOf value)).length ∧
      (convert reg rev typeOf showVal twn value tw vw th vh false sfuel).varsUsed =
        revealAll (reg.revealers (resolveKeyIn th typeOf value)) value vh) := by
  constructor
  · intro h
    rw [convert]
    dsimp only
    rw [if_pos h]
  · intro h
    rw [convert]
    dsimp only
    rw [if_neg h]
    exact ⟨by simp, by simp⟩

/-- C6 witness: the short-circuit branch and the revealer-count branch
of the amended statement, at concrete inputs on `regC6`. -/
theorem c6_amended_witness :
    convert regC6 false (fun _ => (1 : ℤ)) (fun _ => "()") "T" () 1 ∅ (some 1) ∅ false 10 =
      ⟨.ok (), 0, ∅, [], []⟩ ∧
    (convert regC6 false (fun _ => (1 : ℤ)) (fun _ => "()") "T" () 2 ∅ (some 1) ∅ false 10).revealerCalls =
      (regC6.revealers 1).length := by
  constructor
  · exact (c6_amended regC6 false (fun _ => 1) (fun _ => "()") "T" () 1 ∅ (some 1) ∅ 10).1
      ⟨rfl, rfl⟩
  · exact ((c6_amended regC6 false (fun _ => 1) (fun _ => "()") "T" () 2 ∅ (some 1) ∅ 10).2
      (by decide)).1

/-- C8.  The retry loop of `convert` performs at most 10 searches, and a
no-path search outcome is always the last one recorded: the loop breaks
as soon as a search returns no path. -/
theorem c8_retry_bound {α : Type} (reg : Registry α) (rev : Bool) (typeOf : α → ℤ)
    (showVal : α → String) (twn : String) (value : α) (tw : ℤ) (vw : Finset ℤ)
    (th : Option ℤ) (vh : Finset ℤ) (explicit : Bool) (sfuel : ℕ) :
    (convert reg rev typeOf showVal twn value tw vw th vh explicit sfuel).searches.length ≤ 10 ∧
    (convert reg rev typeOf showVal twn value tw vw th vh explicit sfuel).searches.dropLast.all
      (fun x => !x.isNone) = true := by
  by_cases hsc : resolveKeyIn th typeOf value = tw ∧ vh = vw
  · rw [convert]
    dsimp only
    rw [if_pos hsc]
    exact ⟨by simp, by simp⟩
  · rw [convert]
    dsimp only
    rw [if_neg hsc]
    dsimp only
    obtain ⟨hlen, hdl⟩ := convertLoop_searches reg rev sfuel (resolveKeyIn th typeOf value)
      (revealAll (if explicit then [] else reg.revealers (resolveKeyIn th typeOf value))
        value vh) tw vw value 10 ∅
    refine ⟨hlen, ?_⟩
    rw [List.all_eq_true]
    intro x hx
    have hne := hdl x hx
    cases x with
    | none => exact absurd rfl hne
    | some y => simp

/-- C3.  Error surface of `convert`: when the registry's converter map
covers every registered edge (which `add_conversion` guarantees), a
`convert` call either returns a converted value, or — when the retry
loop exits without a completed chain — fails with `ConversionError`
carrying every recorded converter failure message joined by newlines
(when at least one failure was recorded), or fails with the
`TypeMismatchError` message naming the value and the wanted type (and
then no attempt ran, so no converter was ever invoked); no other error
kind is produced. -/
theorem c3_error_surface {α : Type} (reg : Registry α) (rev : Bool)
    (typeOf : α → ℤ) (showVal : α → String) (twn : String) (value : α)
    (tw : ℤ) (vw : Finset ℤ) (th : Option ℤ) (vh : Finset ℤ)
    (explicit : Bool) (sfuel : ℕ)
    (hin : reg.graph.edges_in.all (fun e => (reg.functions e.data).isSome) = true)
    (hout : reg.graph.edges_out.all (fun e => (reg.functions e.data).isSome) = true) :
    ((convert reg rev typeOf showVal twn value tw vw th vh explicit sfuel).result.isOk
        = true) ∨
    (attemptErrors
        (convert reg rev typeOf showVal twn value tw vw th vh explicit sfuel).attempts
        ≠ [] ∧
      (convert reg rev typeOf showVal twn value tw vw th vh explicit sfuel).result =
        .conversionError ("Some problems occurred during the conversion process:\n" ++
          String.intercalate "\n" (attemptErrors
            (convert reg rev typeOf showVal twn value tw vw th vh explicit sfuel).attempts))) ∨
    ((convert reg rev typeOf showVal twn value tw vw th vh explicit sfuel).attempts = [] ∧
      (convert reg rev typeOf showVal twn value tw vw th vh explicit sfuel).result =
        .typeMismatch ("Could not convert " ++ showVal value ++ " to " ++ twn ++
          ". Perhaps some conversion steps are missing.")) := by
  have hin' : ∀ e ∈ reg.graph.edges_in, (reg.functions e.data).isSome = true := by
    intro e he
    exact List.all_eq_true.mp hin e he
  have hout' : ∀ e ∈ reg.graph.edges_out, (reg.functions e.data).isSome = true := by
    intro e he
    exact List.all_eq_true.mp hout e he
  by_cases hsc : resolveKeyIn th typeOf value = tw ∧ vh = vw
  · left
    rw [convert]
    dsimp only
    rw [if_pos hsc]
    rfl
  · rw [convert]
    dsimp only
    rw [if_neg hsc]
    dsimp only
    generalize hL : convertLoop reg rev sfuel (resolveKeyIn th typeOf value)
      (revealAll (if explicit then [] else reg.revealers (resolveKeyIn th typeOf value))
        value vh) tw vw value 10 ∅ = L
    split
    · left
      rfl
    · rename_i hterm
      have hnp := convertLoop_no_panic reg rev sfuel (resolveKeyIn th typeOf value)
        (revealAll (if explicit then [] else reg.revealers (resolveKeyIn th typeOf value))
          value vh) tw vw value hin' hout' 10 ∅
      rw [hL] at hnp
      exact absurd hterm hnp
    · rename_i hterm
      split
      · rename_i herr
        right; left
        exact ⟨herr, rfl⟩
      · rename_i herr
        right; right
        have hfail := convertLoop_none_failed reg rev sfuel (resolveKeyIn th typeOf value)
          (revealAll (if explicit then [] else reg.revealers (resolveKeyIn th typeOf value))
            value vh) tw vw value 10 ∅
        rw [hL] at hfail
        exact ⟨attemptErrors_nil (hfail hterm) (not_not.mp herr), rfl⟩

/-- C3 witness: on `regW3` (one conversion whose converter always fails
with "E: boom") the call falls into the `ConversionError` disjunct of
the error-surface theorem; the two well-formedness side conditions hold
by computation. -/
theorem c3_error_surface_witness :
    (regW3.graph.edges_in.all (fun e => (regW3.functions e.data).isSome) = true) ∧
    (regW3.graph.edges_out.all (fun e => (regW3.functions e.data).isSome) = true) ∧
    (((convert regW3 false (fun _ => (1 : ℤ)) (fun _ => "()") "T" () 2 ∅ (some 1) ∅
          true 10).result.isOk = true) ∨
     (attemptErrors (convert regW3 false (fun _ => (1 : ℤ)) (fun _ => "()") "T" () 2 ∅
          (some 1) ∅ true 10).attempts ≠ [] ∧
       (convert regW3 false (fun _ => (1 : ℤ)) (fun _ => "()") "T" () 2 ∅ (some 1) ∅
          true 10).result =
         .conversionError ("Some problems occurred during the conversion process:\n" ++
           String.intercalate "\n" (attemptErrors (convert regW3 false (fun _ => (1 : ℤ))
             (fun _ => "()") "T" () 2 ∅ (some 1) ∅ true 10).attempts))) ∨
     ((convert regW3 false (fun _ => (1 : ℤ)) (fun _ => "()") "T" () 2 ∅ (some 1) ∅
          true 10).attempts = [] ∧
       (convert regW3 false (fun _ => (1 : ℤ)) (fun _ => "()") "T" () 2 ∅ (some 1) ∅
          true 10).result =
         .typeMismatch ("Could not convert " ++ "()" ++ " to " ++ "T" ++
           ". Perhaps some conversion steps are missing."))) := by
  refine ⟨by decide, by decide, ?_⟩
  exact c3_error_surface regW3 false (fun _ => (1 : ℤ)) (fun _ => "()") "T" () 2 ∅
    (some 1) ∅ true 10 (by decide) (by decide)

/-- C4.  Exclusion, in the three parts of the claim: (1) a chain
returned by `search` with a non-empty exclusion set never contains an
excluded edge; (2) a popped state whose edge is excluded is dropped
without expansion and without being recorded — the step's entire effect
is the pop itself, in both directions; (3) within one `convert` call, an
edge excluded after a converter failure is in no later attempt's chain
and is never executed again. -/
theorem c4_exclusion :
    (∀ (rev : Bool) (g : Graph) (fuel : ℕ) (ki : ℤ) (vi : Finset ℤ) (ko : ℤ)
        (vo : Finset ℤ) (skip : Finset Edge) (c : List Edge), skip ≠ ∅ →
        g.search rev fuel ki vi ko vo skip = some c → ∀ e ∈ c, e ∉ skip) ∧
    (∀ (sr : Searcher) (state : SState) (rest : List SState),
        popMin sr.queue_in = some (state, rest) → state.edge ∈ sr.skip_edges →
        searchForward sr = (none, { sr with queue_in := rest })) ∧
    (∀ (sr : Searcher) (state : SState) (rest : List SState),
        popMin sr.queue_out = some (state, rest) → state.edge ∈ sr.skip_edges →
        searchBackward sr = (none, { sr with queue_out := rest })) ∧
    (∀ (α : Type) (reg : Registry α) (rev : Bool) (typeOf : α → ℤ)
        (showVal : α → String) (twn : String) (value : α) (tw : ℤ) (vw : Finset ℤ)
        (th : Option ℤ) (vh : Finset ℤ) (explicit : Bool) (sfuel : ℕ)
        (i j : ℕ) (a b : Attempt) (e : Edge) (m : String),
        (convert reg rev typeOf showVal twn value tw vw th vh explicit
          sfuel).attempts.get? i = some a →
        (convert reg rev typeOf showVal twn value tw vw th vh explicit
          sfuel).attempts.get? j = some b →
        i < j → a.failed = some (e, m) → e ∉ b.chain ∧ e ∉ b.executed) := by
  refine ⟨?_, ?_, ?_, ?_⟩
  · intro rev g fuel ki vi ko vo skip c _ h
    exact search_skip_sound g rev fuel ki vi ko vo skip c h
  · intro sr state rest hpop hskip
    rcases searchForward_cases sr with ⟨hpop', heq⟩ | ⟨state', rest', hpop', hcase⟩
    · rw [hpop] at hpop'
      exact absurd hpop' (by simp)
    · rw [hpop] at hpop'
      obtain ⟨hs, hr⟩ := Prod.mk.injEq .. ▸ Option.some.inj hpop'
      subst hs
      subst hr
      rcases hcase with ⟨-, heq⟩ | ⟨hns, -, -, -⟩ | ⟨hns, -, -, -, -⟩ | ⟨hns, -, -, -⟩
      · exact heq
      · exact absurd hskip hns
      · exact absurd hskip hns
      · exact absurd hskip hns
  · intro sr state rest hpop hskip
    rcases searchBackward_cases sr with ⟨hpop', heq⟩ | ⟨state', rest', hpop', hcase⟩
    · rw [hpop] at hpop'
      exact absurd hpop' (by simp)
    · rw [hpop] at hpop'
      obtain ⟨hs, hr⟩ := Prod.mk.injEq .. ▸ Option.some.inj hpop'
      subst hs
      subst hr
      rcases hcase with ⟨-, heq⟩ | ⟨hns, -, -, -⟩ | ⟨hns, -, -, -, -⟩ | ⟨hns, -, -, -⟩
      · exact heq
      · exact absurd hskip hns
      · exact absurd hskip hns
      · exact absurd hskip hns
  · intro α reg rev typeOf showVal twn value tw vw th vh explicit sfuel i j a b e m
      hi hj hij hf
    by_cases hsc : resolveKeyIn th typeOf value = tw ∧ vh = vw
    · rw [convert] at hi
      dsimp only at hi
      rw [if_pos hsc] at hi
      simp at hi
    · rw [convert] at hi hj
      dsimp only at hi hj
      rw [if_neg hsc] at hi hj
      dsimp only at hi hj
      have hchain := convertLoop_pairwise reg rev sfuel (resolveKeyIn th typeOf value)
        (revealAll (if explicit then [] else reg.revealers (resolveKeyIn th typeOf value))
          value vh) tw vw value 10 ∅ i j a b e m hi hj hij hf
      have hb := List.get?_mem hj
      have hexec := (convertLoop_skip reg rev sfuel (resolveKeyIn th typeOf value)
        (revealAll (if explicit then [] else reg.revealers (resolveKeyIn th typeOf value))
          value vh) tw vw value 10 ∅ b hb).2
      exact ⟨hchain, fun hx => hchain (hexec e hx)⟩

/-- C4 witness: on `gW` with exclusion set `{eW1}`, the search returns
the non-excluded parallel edge `[eW2]`, which indeed avoids the set; and
on the seeded searcher `srW`, whose queue minimum is the root at the
excluded edge `eW1`, one forward step only pops that root — no visit is
recorded and nothing is expanded. -/
theorem c4_exclusion_witness :
    ({eW1} : Finset Edge) ≠ ∅ ∧
    gW.search false 10 1 ∅ 2 ∅ {eW1} = some [eW2] ∧
    eW2 ∉ ({eW1} : Finset Edge) ∧
    searchForward srW = (none, { srW with queue_in := [SState.mk 2 0 0 ∅ eW2 none] }) := by
  refine ⟨by decide, by decide, ?_, ?_⟩
  · exact c4_exclusion.1 false gW 10 1 ∅ 2 ∅ {eW1} [eW2] (by decide) (by decide)
      eW2 (by simp)
  · exact c4_exclusion.2.1 srW (SState.mk 1 0 0 ∅ eW1 none)
      [SState.mk 2 0 0 ∅ eW2 none] (by rfl) (by decide)
